import Mathlib

set_option maxHeartbeats 1000000

/-!
Verification of the core of the `oxc_formatter` repository: the document IR,
the `propagate_expand` pre-pass (`src/base_formatter/format_element/document.rs`),
the buffers (`src/buffer.rs`), the options layer (`src/options.rs`,
`src/base_formatter/mod.rs`) and the stub JavaScript formatter (`src/format/js.rs`).

The Rust sources are shallowly embedded: machine integers become `Nat` (with the
domain bound stated where it matters), interior mutability of the group-mode
cells becomes an explicit mode store `Nat → GroupMode` keyed by the identity of
the cell, and `Interned` pointer identity becomes an explicit id carried next to
the (structurally present) shared content.  Rust `Vec` stacks (push/pop at the
back, `last()` reads the most recently pushed entry) are modelled as Lean lists
with the top of the stack at the head.
-/

namespace OxcFormatter

/-- Modelled from the spec (§3.2): the group mode of `tag::Group`
(`src/base_formatter/format_element/tag.rs` is not present under `src/`).
`Flat | Expand | Propagated`. -/
inductive GroupMode where
  | flat
  | expand
  | propagated
deriving DecidableEq, Repr

/-- `GroupMode::is_flat` (modelled from the spec: only `Flat` is flat). -/
def GroupMode.is_flat : GroupMode → Bool
  | .flat => true
  | _ => false

/-- Line modes of `FormatElement::Line` (spec §3.1). -/
inductive LineMode where
  | soft
  | softOrSpace
  | hard
  | empty
  | literal
deriving DecidableEq, Repr

/-- Print mode used by `ConditionalContent` conditions (spec §3.2). -/
inductive PrintMode where
  | flat
  | expanded
deriving DecidableEq, Repr

/-- Modelled from the spec (§3.2): the `Condition` payload of
`Tag::StartConditionalContent` — a print mode and an optional group id. -/
structure Condition where
  mode : PrintMode
  group_id : Option Nat
deriving DecidableEq, Repr

/-- The tag variants that the verified functions treat specially.  All the
remaining balanced start/end tag kinds of the source enum (indent, align,
fill, line suffix, label, verbatim, …) are uniformly represented by
`other`, since every function verified here handles them through a
catch-all match arm. -/
inductive Tag where
  | startGroup (gref : Nat)
  | endGroup
  | startConditionalContent (condition : Condition)
  | endConditionalContent
  | other (kind : Nat) (is_start : Bool)
deriving DecidableEq, Repr

/-- Modelled from the spec (§3.1): the document IR element
(`src/base_formatter/format_element.rs` is not present under `src/`; the
variants and their payloads follow the spec and the pattern matches of
`document.rs` and `buffer.rs`).

* `startGroup` carries `gref`, the identity of the group's shared mutable
  mode cell; the current modes live in a separate store `Nat → GroupMode`.
* `interned` carries `iid`, the pointer identity of the shared sub-document,
  together with its content. -/
inductive FormatElement where
  | space
  | line (mode : LineMode)
  | expandParent
  | staticText (text : String)
  | dynamicText (text : String)
  | locatedTokenText (slice : String)
  | lineSuffixBoundary
  | interned (iid : Nat) (content : List FormatElement)
  | bestFitting (variants : List (List FormatElement))
  | tag (t : Tag)

/-- The most-flat variant of a `BestFitting` element.  Modelled from the spec
(§3.1, §4.3): variants are ordered from most-flat to least-flat and are
non-empty, so `most_flat` is the first variant. -/
def most_flat (variants : List (List FormatElement)) : List FormatElement :=
  variants.headD []

mutual

/-- Structural decidable equality for the nested `FormatElement` type. -/
def feDecEq : (a b : FormatElement) → Decidable (a = b)
  | .space, .space => .isTrue rfl
  | .line m₁, .line m₂ =>
    match decEq m₁ m₂ with
    | .isTrue h => .isTrue (by rw [h])
    | .isFalse h => .isFalse (by intro hc; cases hc; exact h rfl)
  | .expandParent, .expandParent => .isTrue rfl
  | .staticText t₁, .staticText t₂ =>
    match decEq t₁ t₂ with
    | .isTrue h => .isTrue (by rw [h])
    | .isFalse h => .isFalse (by intro hc; cases hc; exact h rfl)
  | .dynamicText t₁, .dynamicText t₂ =>
    match decEq t₁ t₂ with
    | .isTrue h => .isTrue (by rw [h])
    | .isFalse h => .isFalse (by intro hc; cases hc; exact h rfl)
  | .locatedTokenText t₁, .locatedTokenText t₂ =>
    match decEq t₁ t₂ with
    | .isTrue h => .isTrue (by rw [h])
    | .isFalse h => .isFalse (by intro hc; cases hc; exact h rfl)
  | .lineSuffixBoundary, .lineSuffixBoundary => .isTrue rfl
  | .interned i₁ c₁, .interned i₂ c₂ =>
    match decEq i₁ i₂, feListDecEq c₁ c₂ with
    | .isTrue h₁, .isTrue h₂ => .isTrue (by rw [h₁, h₂])
    | .isFalse h₁, _ => .isFalse (by intro hc; cases hc; exact h₁ rfl)
    | _, .isFalse h₂ => .isFalse (by intro hc; cases hc; exact h₂ rfl)
  | .bestFitting v₁, .bestFitting v₂ =>
    match feListListDecEq v₁ v₂ with
    | .isTrue h => .isTrue (by rw [h])
    | .isFalse h => .isFalse (by intro hc; cases hc; exact h rfl)
  | .tag t₁, .tag t₂ =>
    match decEq t₁ t₂ with
    | .isTrue h => .isTrue (by rw [h])
    | .isFalse h => .isFalse (by intro hc; cases hc; exact h rfl)
  | .space, .line _ | .space, .expandParent | .space, .staticText _
  | .space, .dynamicText _ | .space, .locatedTokenText _ | .space, .lineSuffixBoundary
  | .space, .interned _ _ | .space, .bestFitting _ | .space, .tag _
  | .line _, .space | .line _, .expandParent | .line _, .staticText _
  | .line _, .dynamicText _ | .line _, .locatedTokenText _ | .line _, .lineSuffixBoundary
  | .line _, .interned _ _ | .line _, .bestFitting _ | .line _, .tag _
  | .expandParent, .space | .expandParent, .line _ | .expandParent, .staticText _
  | .expandParent, .dynamicText _ | .expandParent, .locatedTokenText _
  | .expandParent, .lineSuffixBoundary
  | .expandParent, .interned _ _ | .expandParent, .bestFitting _ | .expandParent, .tag _
  | .staticText _, .space | .staticText _, .line _ | .staticText _, .expandParent
  | .staticText _, .dynamicText _ | .staticText _, .locatedTokenText _
  | .staticText _, .lineSuffixBoundary
  | .staticText _, .interned _ _ | .staticText _, .bestFitting _ | .staticText _, .tag _
  | .dynamicText _, .space | .dynamicText _, .line _ | .dynamicText _, .expandParent
  | .dynamicText _, .staticText _ | .dynamicText _, .locatedTokenText _
  | .dynamicText _, .lineSuffixBoundary
  | .dynamicText _, .interned _ _ | .dynamicText _, .bestFitting _ | .dynamicText _, .tag _
  | .locatedTokenText _, .space | .locatedTokenText _, .line _
  | .locatedTokenText _, .expandParent
  | .locatedTokenText _, .staticText _ | .locatedTokenText _, .dynamicText _
  | .locatedTokenText _, .lineSuffixBoundary
  | .locatedTokenText _, .interned _ _ | .locatedTokenText _, .bestFitting _
  | .locatedTokenText _, .tag _
  | .lineSuffixBoundary, .space | .lineSuffixBoundary, .line _
  | .lineSuffixBoundary, .expandParent
  | .lineSuffixBoundary, .staticText _ | .lineSuffixBoundary, .dynamicText _
  | .lineSuffixBoundary, .locatedTokenText _
  | .lineSuffixBoundary, .interned _ _ | .lineSuffixBoundary, .bestFitting _
  | .lineSuffixBoundary, .tag _
  | .interned _ _, .space | .interned _ _, .line _ | .interned _ _, .expandParent
  | .interned _ _, .staticText _ | .interned _ _, .dynamicText _
  | .interned _ _, .locatedTokenText _ | .interned _ _, .lineSuffixBoundary
  | .interned _ _, .bestFitting _ | .interned _ _, .tag _
  | .bestFitting _, .space | .bestFitting _, .line _ | .bestFitting _, .expandParent
  | .bestFitting _, .staticText _ | .bestFitting _, .dynamicText _
  | .bestFitting _, .locatedTokenText _ | .bestFitting _, .lineSuffixBoundary
  | .bestFitting _, .interned _ _ | .bestFitting _, .tag _
  | .tag _, .space | .tag _, .line _ | .tag _, .expandParent
  | .tag _, .staticText _ | .tag _, .dynamicText _ | .tag _, .locatedTokenText _
  | .tag _, .lineSuffixBoundary | .tag _, .interned _ _ | .tag _, .bestFitting _
  => .isFalse (by intro h; exact absurd h (by simp))

def feListDecEq : (a b : List FormatElement) → Decidable (a = b)
  | [], [] => .isTrue rfl
  | [], _ :: _ => .isFalse (by simp)
  | _ :: _, [] => .isFalse (by simp)
  | a :: as, b :: bs =>
    match feDecEq a b, feListDecEq as bs with
    | .isTrue h₁, .isTrue h₂ => .isTrue (by rw [h₁, h₂])
    | .isFalse h₁, _ => .isFalse (by intro hc; cases hc; exact h₁ rfl)
    | _, .isFalse h₂ => .isFalse (by intro hc; cases hc; exact h₂ rfl)

def feListListDecEq : (a b : List (List FormatElement)) → Decidable (a = b)
  | [], [] => .isTrue rfl
  | [], _ :: _ => .isFalse (by simp)
  | _ :: _, [] => .isFalse (by simp)
  | a :: as, b :: bs =>
    match feListDecEq a b, feListListDecEq as bs with
    | .isTrue h₁, .isTrue h₂ => .isTrue (by rw [h₁, h₂])
    | .isFalse h₁, _ => .isFalse (by intro hc; cases hc; exact h₁ rfl)
    | _, .isFalse h₂ => .isFalse (by intro hc; cases hc; exact h₂ rfl)

end

instance : DecidableEq FormatElement := feDecEq

instance : DecidableEq (List FormatElement) := feListDecEq

/-- The enclosing-context entries of `Document::propagate_expand`
(`document.rs` lines 25-29): either a reference to a group's mode cell or a
`BestFitting` boundary marker. -/
inductive Enclosing where
  | group (gref : Nat)
  | bestFitting
deriving DecidableEq, Repr

/-- The mutable state threaded through `propagate_expands`: the group-mode
cells (`Cell<GroupMode>` in the source, keyed here by cell identity) and the
`checked_interned` memoization map (`FxHashMap<&Interned, bool>`, keyed here
by interned pointer identity). -/
structure PropagateState where
  modes : Nat → GroupMode
  checked_interned : List (Nat × Bool)

/-- Lookup in the association-list model of `FxHashMap<&Interned, bool>`. -/
def lookup_interned (cache : List (Nat × Bool)) (iid : Nat) : Option Bool :=
  (cache.find? (fun p => p.1 = iid)).map (fun p => p.2)

/-- Modelled from the spec (§3.2/§4.1): `tag::Group::propagate_expand` sets the
group's mode cell to `Propagated` ("is marked `Propagated`"). -/
def mark_propagated (modes : Nat → GroupMode) (g : Nat) : Nat → GroupMode :=
  fun g' => if g' = g then .propagated else modes g'

/-- `expand_parent` (`document.rs` lines 31-35): if the innermost enclosing
context is a group, mark it propagated; a `BestFitting` boundary (or an empty
stack) swallows the signal. -/
def expand_parent (enclosing : List Enclosing) (modes : Nat → GroupMode) :
    Nat → GroupMode :=
  match enclosing.head? with
  | some (.group g) => mark_propagated modes g
  | _ => modes

mutual

/-- `propagate_expands` (`document.rs` lines 37-122): walks the element list,
maintaining the enclosing-context stack, ORing each element's
`element_expands` into the running `expands` accumulator and calling
`expand_parent` whenever an element expands.  Returns the accumulator
together with the threaded stack and state. -/
def propagate_expands (elements : List FormatElement) (enclosing : List Enclosing)
    (st : PropagateState) : Bool × List Enclosing × PropagateState :=
  match elements with
  | [] => (false, enclosing, st)
  | e :: rest =>
    match propagate_expands_element e enclosing st with
    | (element_expands, enc1, st1) =>
      let st2 := if element_expands then
          { st1 with modes := expand_parent enc1 st1.modes } else st1
      match propagate_expands rest enc1 st2 with
      | (rest_expands, enc2, st3) => (element_expands || rest_expands, enc2, st3)
termination_by sizeOf elements

/-- The per-element `element_expands` computation of `propagate_expands`
(`document.rs` lines 44-113), including its effects on the enclosing stack,
the mode cells and the interned memoization map. -/
def propagate_expands_element (e : FormatElement) (enclosing : List Enclosing)
    (st : PropagateState) : Bool × List Enclosing × PropagateState :=
  match e with
  | .tag (.startGroup g) => (false, .group g :: enclosing, st)
  | .tag .endGroup =>
    match enclosing with
    | .group g :: rest_enc => (!(st.modes g).is_flat, rest_enc, st)
    | _ :: rest_enc => (false, rest_enc, st)
    | [] => (false, [], st)
  | .interned iid content =>
    match lookup_interned st.checked_interned iid with
    | some interned_expands => (interned_expands, enclosing, st)
    | none =>
      match propagate_expands content enclosing st with
      | (interned_expands, enc1, st1) =>
        (interned_expands, enc1,
          { st1 with checked_interned := (iid, interned_expands) :: st1.checked_interned })
  | .bestFitting variants =>
    match propagate_expands_variants variants (.bestFitting :: enclosing) st with
    | (enc1, st1) => (false, enc1.tail, st1)
  | .staticText text => (text.contains '\n', enclosing, st)
  | .dynamicText text => (text.contains '\n', enclosing, st)
  | .locatedTokenText slice => (slice.contains '\n', enclosing, st)
  | .expandParent => (true, enclosing, st)
  | .line .hard => (true, enclosing, st)
  | .line .empty => (true, enclosing, st)
  | _ => (false, enclosing, st)
termination_by sizeOf e

/-- The loop over the variants of a `BestFitting` element
(`document.rs` lines 65-67): the per-variant `expands` result is discarded. -/
def propagate_expands_variants (variants : List (List FormatElement))
    (enclosing : List Enclosing) (st : PropagateState) :
    List Enclosing × PropagateState :=
  match variants with
  | [] => (enclosing, st)
  | v :: vs =>
    match propagate_expands v enclosing st with
    | (_, enc1, st1) => propagate_expands_variants vs enc1 st1
termination_by sizeOf variants

end

/-- `Document` (`document.rs` lines 9-12): an owned vector of elements. -/
structure Document where
  elements : List FormatElement

/-- `Document::propagate_expand` (`document.rs` lines 24-127): runs
`propagate_expands` on the whole document with an empty enclosing stack and an
empty interned memoization map.  The Rust method mutates the mode cells in
place; the embedding takes the mode store and returns the updated store. -/
def Document.propagate_expand (d : Document) (modes : Nat → GroupMode) :
    Nat → GroupMode :=
  (propagate_expands d.elements [] ⟨modes, []⟩).2.2.modes

mutual

/-- Size measure for elements, used for the termination of the
`RemoveSoftLinesBuffer` loops: flattening a `BestFitting` to its most-flat
variant strictly decreases it. -/
def fe_weight : FormatElement → Nat
  | .interned _ content => 1 + fe_list_weight content
  | .bestFitting variants => 1 + fe_variants_weight variants
  | _ => 1

def fe_list_weight : List FormatElement → Nat
  | [] => 0
  | e :: rest => fe_weight e + fe_list_weight rest

def fe_variants_weight : List (List FormatElement) → Nat
  | [] => 0
  | v :: vs => 1 + fe_list_weight v + fe_variants_weight vs

end

theorem fe_weight_pos (e : FormatElement) : 1 ≤ fe_weight e := by
  cases e <;> simp [fe_weight]

theorem fe_list_weight_append (a b : List FormatElement) :
    fe_list_weight (a ++ b) = fe_list_weight a + fe_list_weight b := by
  induction a with
  | nil => simp [fe_list_weight]
  | cons e rest ih => simp [fe_list_weight, ih]; omega

theorem most_flat_weight_lt (variants : List (List FormatElement)) :
    fe_list_weight (most_flat variants) < 1 + fe_variants_weight variants := by
  cases variants with
  | nil => simp [most_flat, fe_list_weight, fe_variants_weight]
  | cons v vs =>
    simp [most_flat, fe_variants_weight]
    omega

/-- The interned-element cleaning cache of `RemoveSoftLinesBuffer`
(`buffer.rs` lines 344-351, `FxHashMap<Interned, Interned>`, keyed by interned
pointer identity).  Rust stores the cleaned `Interned`; whether the stored
value is pointer-equal to the key records whether cleaning changed anything.
A cleaning that changed nothing is therefore represented by `none` (a cache
hit then returns the input content itself, exactly like the pointer-equal hit
in Rust), and a changed cleaning by `some cleanedContent`. -/
def InternedCache : Type := List (Nat × Option (List FormatElement))

/-- Lookup in the association-list model of the interned cleaning cache. -/
def lookup_cleaned (cache : InternedCache) (iid : Nat) :
    Option (Option (List FormatElement)) :=
  (List.find? (fun p => p.1 = iid) cache).map (fun p => p.2)

/-- `RemoveSoftLinesBuffer::is_in_expanded_conditional_content`
(`buffer.rs` lines 378-384): whether the most recently pushed, still-open
`ConditionalContent` condition has mode `Expanded`.  (Rust reads
`.iter().last()` of the `Vec` stack, i.e. its top; the top of the stack is
the head of the list here.) -/
def is_in_expanded_conditional_content (stack : List Condition) : Bool :=
  match stack.head? with
  | some condition => condition.mode == PrintMode.expanded
  | none => false

mutual

/-- `clean_interned` (`buffer.rs` lines 387-485).  Returns the cleaned content
together with the `changed` flag (in Rust: whether the returned `Interned` is
a fresh allocation rather than the input pointer), threading the cache and the
conditional-content stack. -/
def clean_interned (iid : Nat) (content : List FormatElement)
    (cache : InternedCache) (stack : List Condition) :
    (List FormatElement × Bool) × InternedCache × List Condition :=
  match lookup_cleaned cache iid with
  | some (some cleaned) => ((cleaned, true), cache, stack)
  | some none => ((content, false), cache, stack)
  | none =>
    match scan_phase content cache stack with
    | (some cleaned, cache1, stack1) =>
      ((cleaned, true), (iid, some cleaned) :: cache1, stack1)
    | (none, cache1, stack1) =>
      ((content, false), (iid, none) :: cache1, stack1)
termination_by 3 * fe_list_weight content + 2
decreasing_by
  all_goals simp [fe_list_weight, fe_weight, fe_list_weight_append]


/-- The `find_map` phase of `clean_interned` (`buffer.rs` lines 395-424),
fused with the hand-off to the cleaning loop (lines 426-475): scans for the
first element that must change (a soft line, a conditional-content tag, a
`BestFitting`, or a nested interned whose cleaning allocated).  Returns
`none` (and the threaded cache/stack) when nothing needs to change, otherwise
`some cleanedContent` where the unchanged prefix is retained as is and the
remainder is processed by `loop_phase`. -/
def scan_phase (els : List FormatElement) (cache : InternedCache)
    (stack : List Condition) :
    Option (List FormatElement) × InternedCache × List Condition :=
  match els with
  | [] => (none, cache, stack)
  | e :: rest =>
    match e with
    | .line .soft =>
      match loop_phase (.line .soft :: rest) cache stack with
      | (cleaned, cache1, stack1) => (some cleaned, cache1, stack1)
    | .line .softOrSpace =>
      match loop_phase (.line .softOrSpace :: rest) cache stack with
      | (cleaned, cache1, stack1) => (some cleaned, cache1, stack1)
    | .tag (.startConditionalContent condition) =>
      match loop_phase (.tag (.startConditionalContent condition) :: rest) cache stack with
      | (cleaned, cache1, stack1) => (some cleaned, cache1, stack1)
    | .tag .endConditionalContent =>
      match loop_phase (.tag .endConditionalContent :: rest) cache stack with
      | (cleaned, cache1, stack1) => (some cleaned, cache1, stack1)
    | .bestFitting variants =>
      match loop_phase (.bestFitting variants :: rest) cache stack with
      | (cleaned, cache1, stack1) => (some cleaned, cache1, stack1)
    | .interned iid2 inner =>
      match clean_interned iid2 inner cache stack with
      | ((cleaned_inner, changed), cache1, stack1) =>
        if changed then
          match loop_phase rest cache1 stack1 with
          | (cleaned_rest, cache2, stack2) =>
            (some (.interned iid2 cleaned_inner :: cleaned_rest), cache2, stack2)
        else
          match scan_phase rest cache1 stack1 with
          | (r, cache2, stack2) =>
            (r.map (fun l => .interned iid2 inner :: l), cache2, stack2)
    | _ =>
      match scan_phase rest cache stack with
      | (r, cache1, stack1) => (r.map (fun l => e :: l), cache1, stack1)
termination_by 3 * fe_list_weight els + 1
decreasing_by
  all_goals simp [fe_list_weight, fe_weight, fe_list_weight_append]
  all_goals first
    | omega
    | exact fe_weight_pos _


/-- The element-stack cleaning loop shared, arm for arm, by
`clean_interned` (`buffer.rs` lines 428-473) and
`RemoveSoftLinesBuffer::write_element` (`buffer.rs` lines 488-524):

* conditional-content tags maintain the condition stack and are dropped;
* while the innermost open condition is `Expanded`, every other element is
  dropped;
* `Line(Soft)` is dropped, `Line(SoftOrSpace)` becomes `Space`;
* nested interned elements are cleaned via `clean_interned`;
* a `BestFitting` is replaced by its most-flat variant's elements, pushed
  back through the same loop;
* every other element is emitted unchanged. -/
def loop_phase (els : List FormatElement) (cache : InternedCache)
    (stack : List Condition) :
    List FormatElement × InternedCache × List Condition :=
  match els with
  | [] => ([], cache, stack)
  | e :: es =>
    match e with
    | .tag (.startConditionalContent condition) =>
      loop_phase es cache (condition :: stack)
    | .tag .endConditionalContent =>
      loop_phase es cache stack.tail
    | e' =>
      if is_in_expanded_conditional_content stack then
        loop_phase es cache stack
      else
        match e' with
        | .line .soft => loop_phase es cache stack
        | .line .softOrSpace =>
          match loop_phase es cache stack with
          | (out, cache1, stack1) => (.space :: out, cache1, stack1)
        | .interned iid inner =>
          match clean_interned iid inner cache stack with
          | ((cleaned, _), cache1, stack1) =>
            match loop_phase es cache1 stack1 with
            | (out, cache2, stack2) => (.interned iid cleaned :: out, cache2, stack2)
        | .bestFitting variants =>
          loop_phase (most_flat variants ++ es) cache stack
        | e'' =>
          match loop_phase es cache stack with
          | (out, cache1, stack1) => (e'' :: out, cache1, stack1)
termination_by 3 * fe_list_weight els
decreasing_by
  all_goals simp [fe_list_weight, fe_weight, fe_list_weight_append]
  all_goals try omega
  all_goals first
    | exact fe_weight_pos _
    | exact most_flat_weight_lt _

end



/-- `RemoveSoftLinesBuffer::write_element` (`buffer.rs` lines 488-524): the
written element is pushed onto the element stack and run through the cleaning
loop; the first component of the result is the sequence of elements forwarded
to the inner buffer. -/
def write_element (element : FormatElement) (cache : InternedCache)
    (stack : List Condition) :
    List FormatElement × InternedCache × List Condition :=
  loop_phase [element] cache stack

/-! ## VecBuffer snapshots (`src/buffer.rs`) -/

/-- `VecBuffer::snapshot` (`buffer.rs` lines 238-240):
`BufferSnapshot::position(self.elements.len())`. -/
def vec_buffer_snapshot (elements : List FormatElement) : Nat :=
  elements.length

/-- `VecBuffer::restore_snapshot` (`buffer.rs` lines 242-251): asserts
`self.elements.len() >= position` (the assertion failure is modelled by
`none`), then truncates the buffer to the first `position` elements. -/
def restore_snapshot (elements : List FormatElement) (position : Nat) :
    Option (List FormatElement) :=
  if position ≤ elements.length then some (elements.take position) else none

/-- A buffer program that takes and restores snapshots at most once each and
in LIFO order: `write` appends one element
(`VecBuffer::write_element`, `buffer.rs` lines 222-224), and
`scoped body` takes a snapshot, runs `body`, and restores the snapshot. -/
inductive BufOp where
  | write (e : FormatElement)
  | scoped (body : List BufOp)

mutual

/-- Run one LIFO buffer operation on a `VecBuffer`. -/
def exec_op (op : BufOp) (elements : List FormatElement) :
    Option (List FormatElement) :=
  match op with
  | .write e => some (elements ++ [e])
  | .scoped body =>
    match exec_ops body elements with
    | some elements1 => restore_snapshot elements1 (vec_buffer_snapshot elements)
    | none => none

/-- Run a sequence of LIFO buffer operations on a `VecBuffer`. -/
def exec_ops (ops : List BufOp) (elements : List FormatElement) :
    Option (List FormatElement) :=
  match ops with
  | [] => some elements
  | op :: rest =>
    match exec_op op elements with
    | some elements1 => exec_ops rest elements1
    | none => none

end

/-! ## The options layer (`src/options.rs` and `src/base_formatter/mod.rs`) -/

/-- `IndentWidth` of `src/base_formatter/mod.rs` (lines 172-190):
a validated `u8`, default 2, `MIN = 0`, `MAX = 24`. -/
structure BaseIndentWidth where
  value : Nat
deriving DecidableEq, Repr

def BaseIndentWidth.MIN : Nat := 0

def BaseIndentWidth.MAX : Nat := 24

def BaseIndentWidth.default : BaseIndentWidth := ⟨2⟩

/-- `IndentWidthFromIntError` (`base_formatter/mod.rs` lines 331-332). -/
structure IndentWidthFromIntError where
  value : Nat
deriving DecidableEq, Repr

/-- `TryFrom<u8> for IndentWidth` (`base_formatter/mod.rs` lines 202-212):
ok iff `MIN <= value <= MAX`.  The `u8` domain is `value < 256`. -/
def BaseIndentWidth.try_from (value : Nat) :
    Except IndentWidthFromIntError BaseIndentWidth :=
  if BaseIndentWidth.MIN ≤ value ∧ value ≤ BaseIndentWidth.MAX then
    .ok ⟨value⟩
  else
    .error ⟨value⟩

/-- `LineWidth` of `src/base_formatter/mod.rs` (lines 227-249):
a validated `u16`, default 80, `MIN = 1`, `MAX = 320`. -/
structure BaseLineWidth where
  value : Nat
deriving DecidableEq, Repr

def BaseLineWidth.MIN : Nat := 1

def BaseLineWidth.MAX : Nat := 320

def BaseLineWidth.default : BaseLineWidth := ⟨80⟩

/-- `LineWidthFromIntError` (`base_formatter/mod.rs` lines 345-347). -/
structure LineWidthFromIntError where
  value : Nat
deriving DecidableEq, Repr

/-- `TryFrom<u16> for LineWidth` (`base_formatter/mod.rs` lines 308-318):
ok iff `MIN <= value <= MAX`.  The `u16` domain is `value < 65536`. -/
def BaseLineWidth.try_from (value : Nat) :
    Except LineWidthFromIntError BaseLineWidth :=
  if BaseLineWidth.MIN ≤ value ∧ value ≤ BaseLineWidth.MAX then
    .ok ⟨value⟩
  else
    .error ⟨value⟩

/-- `IndentStyle` of `src/options.rs` (lines 96-114), default `Tab`. -/
inductive IndentStyle where
  | tab
  | space
deriving DecidableEq, Repr

/-- `LineEnding` of `src/options.rs` (lines 173-207), default `Lf`. -/
inductive LineEnding where
  | lf
  | crlf
  | cr
deriving DecidableEq, Repr

/-- `IndentWidth` of `src/options.rs` (lines 116-132): plain `u8` wrapper with
`MIN = 0`, `MAX = 24` and default 2 (no validating constructor is defined in
`src/options.rs`). -/
structure OptIndentWidth where
  value : Nat
deriving DecidableEq, Repr

def OptIndentWidth.default : OptIndentWidth := ⟨2⟩

/-- `LineWidth` of `src/options.rs` (lines 134-145): plain `u16` wrapper whose
`Default` impl is `Self(8)` with the source comment `TODO: Revert to 80`,
although the `line_width` field doc of `FormatOptions` says "Defaults to 80". -/
structure OptLineWidth where
  value : Nat
deriving DecidableEq, Repr

def OptLineWidth.default : OptLineWidth := ⟨8⟩

/-- `QuoteStyle` (`options.rs` lines 209-255), default `Double`. -/
inductive QuoteStyle where
  | double
  | single
deriving DecidableEq, Repr

def QuoteStyle.is_double : QuoteStyle → Bool
  | .double => true
  | .single => false

/-- `TrailingCommas` (`options.rs` lines 466-487), default `All`. -/
inductive TrailingCommas where
  | all
  | es5
  | none
deriving DecidableEq, Repr

/-- `Semicolons` (`options.rs` lines 513-528), default `Always`. -/
inductive Semicolons where
  | always
  | asNeeded
deriving DecidableEq, Repr

/-- `Semicolons::is_always` (`options.rs` lines 525-527). -/
def Semicolons.is_always : Semicolons → Bool
  | .always => true
  | .asNeeded => false

/-- The fields of the public `FormatOptions` struct (`options.rs` lines 7-37)
used by the verified formatting paths; the remaining fields (jsx quote style,
quote properties, arrow parentheses, bracket spacing, bracket same line,
attribute position, expand) do not influence them. -/
structure FormatOptions where
  indent_style : IndentStyle
  indent_width : OptIndentWidth
  line_ending : LineEnding
  line_width : OptLineWidth
  quote_style : QuoteStyle
  trailing_commas : TrailingCommas
  semicolons : Semicolons
deriving DecidableEq, Repr

/-- `FormatOptions::default()` (derived `Default`, `options.rs` line 7):
every field takes its own default. -/
def FormatOptions.default : FormatOptions :=
  { indent_style := .tab
    indent_width := .default
    line_ending := .lf
    line_width := .default
    quote_style := .double
    trailing_commas := .all
    semicolons := .always }

/-! ## The stub JavaScript formatter (`src/format/js.rs`)

The AST types below model the fragments of the external `oxc_ast` crate that
the formatter destructures; a parsed node is given directly as a concrete
value.  `NumericLiteral.raw` is `Option<Atom>` in `oxc_ast` and the formatter
unwraps it with `expect`; it is modelled as a required field. -/

inductive DeclarationKind where
  | dvar
  | dlet
  | dconst
deriving DecidableEq, Repr

/-- `VariableDeclarationKind::as_str` of `oxc_ast`. -/
def DeclarationKind.as_str : DeclarationKind → String
  | .dvar => "var"
  | .dlet => "let"
  | .dconst => "const"

structure NumericLiteral where
  raw : String
deriving DecidableEq, Repr

structure StringLiteral where
  value : String
deriving DecidableEq, Repr

inductive ArrayExpressionElement where
  | numericLiteral (n : NumericLiteral)
  | elemOther
deriving DecidableEq, Repr

inductive Expression where
  | numericLiteral (n : NumericLiteral)
  | stringLiteral (s : StringLiteral)
  | arrayExpression (elements : List ArrayExpressionElement)
  | exprOther
deriving DecidableEq, Repr

structure VariableDeclarator where
  id_name : Option String
  init : Option Expression
deriving DecidableEq, Repr

structure VariableDeclaration where
  kind : DeclarationKind
  declarations : List VariableDeclarator
deriving DecidableEq, Repr

inductive Statement where
  | variableDeclaration (d : VariableDeclaration)
  | stmtOther
deriving DecidableEq, Repr

structure Program where
  body : List Statement
deriving DecidableEq, Repr

/-- Modelled from the spec (§4.3): the builder `text(&'static str)`
(`src/builders.rs` is not present under `src/`) produces a
`StaticText` element. -/
def text (s : String) : FormatElement :=
  .staticText s

/-- Modelled from the spec (§4.3): the builder `dynamic_text(String)`
produces a `DynamicText` element. -/
def dynamic_text (s : String) : FormatElement :=
  .dynamicText s

/-- Modelled from the spec (§4.3): the builder `space()`. -/
def space : FormatElement :=
  .space

/-- Modelled from the spec (§4.3): the builder `hard_line_break()`. -/
def hard_line_break : FormatElement :=
  .line .hard

/-- `NumericLiteral::fmt_fields` (`format/js.rs` lines 118-126):
`dynamic_text(raw)`. -/
def NumericLiteral.fmt_fields (n : NumericLiteral) : List FormatElement :=
  [dynamic_text n.raw]

/-- `StringLiteral::fmt_fields` (`format/js.rs` lines 128-145): the value
wrapped in quotes chosen by `options.quote_style`. -/
def StringLiteral.fmt_fields (s : StringLiteral) (options : FormatOptions) :
    List FormatElement :=
  let quote := if options.quote_style.is_double then text "\"" else text "'"
  [quote, dynamic_text s.value, quote]

/-- `ArrayExpression::fmt_fields` (`format/js.rs` lines 91-116): a `[`, the
elements separated by `,` and a space, then `]`.  No group, no soft line
breaks and no trailing comma are emitted. -/
def ArrayExpression.fmt_fields (elements : List ArrayExpressionElement) :
    List FormatElement :=
  [text "["] ++
  (elements.enum.flatMap (fun p =>
    (if p.1 > 0 then [text ",", space] else []) ++
    match p.2 with
    | .numericLiteral n => n.fmt_fields
    | .elemOther => [text "/* TODO */"])) ++
  [text "]"]

/-- `Expression::fmt_fields` (`format/js.rs` lines 72-89). -/
def Expression.fmt_fields (e : Expression) (options : FormatOptions) :
    List FormatElement :=
  match e with
  | .numericLiteral n => n.fmt_fields
  | .stringLiteral s => s.fmt_fields options
  | .arrayExpression elements => ArrayExpression.fmt_fields elements
  | .exprOther => [text "/* TODO */"]

/-- `VariableDeclarator::fmt_fields` (`format/js.rs` lines 57-70): the
identifier name (when present) as `dynamic_text`, then ` = ` and the
initializer. -/
def VariableDeclarator.fmt_fields (d : VariableDeclarator)
    (options : FormatOptions) : List FormatElement :=
  (match d.id_name with
   | some name => [dynamic_text name]
   | none => []) ++
  (match d.init with
   | some init => [text " = "] ++ init.fmt_fields options
   | none => [])

/-- `VariableDeclaration::fmt_fields` (`format/js.rs` lines 38-55): the
declarators separated by `,` and a space, then `;` when
`options.semicolons().is_always()`. -/
def VariableDeclaration.fmt_fields (d : VariableDeclaration)
    (options : FormatOptions) : List FormatElement :=
  (d.declarations.enum.flatMap (fun p =>
    (if p.1 > 0 then [text ",", space] else []) ++
    p.2.fmt_fields options)) ++
  (if options.semicolons.is_always then [text ";"] else [])

/-- `Program::fmt_fields` (`format/js.rs` lines 10-36): the statements
separated by hard line breaks; a variable declaration is emitted as its kind
keyword, a space and its fields; any other statement becomes a TODO
placeholder text. -/
def Program.fmt_fields (p : Program) (options : FormatOptions) :
    List FormatElement :=
  p.body.enum.flatMap (fun q =>
    (if q.1 > 0 then [hard_line_break] else []) ++
    match q.2 with
    | .variableDeclaration decl =>
      [text decl.kind.as_str, space] ++ decl.fmt_fields options
    | .stmtOther => [text "/* TODO */"])

/-- Modelled from the spec (§4.5): the printer (`src/base_formatter/printer.rs`
is not present under `src/`), restricted to the element forms that the
verified formatting paths emit.  Text appends to the output (flushing a
pending space before the first visible character), `Space` sets the pending
space, and `Hard`/`Empty` lines emit a newline and drop the pending space.
Element forms whose rendering would need the group machinery of §4.5 yield
`none`.  The `width` budget is consulted only by group measurement (§4.5
"Main loop": text, space and hard lines print unconditionally), so it is
unused on this fragment. -/
def print_elements (width : Nat) (els : List FormatElement) (out : String)
    (pending_space : Bool) : Option String :=
  match els with
  | [] => some out
  | .staticText s :: rest =>
    print_elements width rest ((if pending_space then out ++ " " else out) ++ s) false
  | .dynamicText s :: rest =>
    print_elements width rest ((if pending_space then out ++ " " else out) ++ s) false
  | .locatedTokenText s :: rest =>
    print_elements width rest ((if pending_space then out ++ " " else out) ++ s) false
  | .space :: rest => print_elements width rest out true
  | .line .hard :: rest => print_elements width rest (out ++ "\n") false
  | .line .empty :: rest => print_elements width rest (out ++ "\n") false
  | _ :: _ => none

/-- Modelled from the spec (§4.6): printing a document produced by the stub
formatter — see `print_elements`. -/
def print_doc (width : Nat) (els : List FormatElement) : Option String :=
  print_elements width els "" false

/-- The parsed AST of the source `const a=1` (parsing is external to the
repository). -/
def ast_const_a_1 : Program :=
  ⟨[.variableDeclaration
      ⟨.dconst, [⟨some "a", some (.numericLiteral ⟨"1"⟩)⟩]⟩]⟩

/-- The parsed AST of the source `const c=[2,3,4]` (parsing is external to
the repository). -/
def ast_const_c_array : Program :=
  ⟨[.variableDeclaration
      ⟨.dconst,
       [⟨some "c",
         some (.arrayExpression
           [.numericLiteral ⟨"2"⟩, .numericLiteral ⟨"3"⟩,
            .numericLiteral ⟨"4"⟩])⟩]⟩]⟩

/-- The options of the spec's concrete scenarios (§8): indent_style Space,
indent_width 2, line_ending Lf, semicolons Always, quote_style Double —
with line_width 8 for the array scenario. -/
def scenario_options : FormatOptions :=
  { FormatOptions.default with
    indent_style := .space
    indent_width := ⟨2⟩
    line_width := ⟨8⟩ }

/-- An element the RemoveSoftLines loop forwards unchanged: anything that is
not a soft line, a conditional-content tag, an interned element or a
`BestFitting`. -/
def rsl_passthrough (e : FormatElement) : Bool :=
  match e with
  | .line .soft => false
  | .line .softOrSpace => false
  | .interned _ _ => false
  | .bestFitting _ => false
  | .tag (.startConditionalContent _) => false
  | .tag .endConditionalContent => false
  | _ => true

/-- An element that may legitimately appear in the output stream of
`RemoveSoftLinesBuffer`: not a `Line(Soft)`, not a `Line(SoftOrSpace)` and
not a `BestFitting`. -/
def rsl_output_ok (e : FormatElement) : Bool :=
  match e with
  | .line .soft => false
  | .line .softOrSpace => false
  | .bestFitting _ => false
  | _ => true

/-! ## Spec-side view of finalized documents

The flat element stream of a finalized document is balanced (spec §3.3
invariant 1).  To state the claims about `propagate_expand`, balanced
documents are presented as forests of document trees and flattened into the
element stream the algorithm consumes.  A tree is well-formed when its leaf
atoms are none of the structured forms (group tags, interned, best-fitting)
and, globally, group-cell identities and interned identities are not
duplicated (in Rust each `Cell<GroupMode>` is owned by exactly one
`StartGroup` element and each `Interned` allocation is a distinct pointer;
the theorems below treat the unshared case, while C2 covers the memoized
re-visit of a shared interned sub-document). -/

inductive DocTree where
  | atom (e : FormatElement)
  | group (gref : Nat) (children : List DocTree)
  | bestFit (variants : List (List DocTree))
  | ref (iid : Nat) (content : List DocTree)

mutual

/-- Flatten a document tree into its balanced element stream. -/
def flattenTree : DocTree → List FormatElement
  | .atom e => [e]
  | .group g cs => .tag (.startGroup g) :: (flattenForest cs ++ [.tag .endGroup])
  | .bestFit vs => [.bestFitting (flattenVariants vs)]
  | .ref iid cs => [.interned iid (flattenForest cs)]

def flattenForest : List DocTree → List FormatElement
  | [] => []
  | t :: ts => flattenTree t ++ flattenForest ts

def flattenVariants : List (List DocTree) → List (List FormatElement)
  | [] => []
  | v :: vs => flattenForest v :: flattenVariants vs

end

/-- The expanding elements, exactly as the claim enumerates them:
`Line(Hard)`, `Line(Empty)`, `ExpandParent`, and any text element whose text
contains a newline. -/
def atom_expands (e : FormatElement) : Bool :=
  match e with
  | .staticText text => text.contains '\n'
  | .dynamicText text => text.contains '\n'
  | .locatedTokenText slice => slice.contains '\n'
  | .expandParent => true
  | .line .hard => true
  | .line .empty => true
  | _ => false

/-- A leaf element of a document tree: none of the structured forms. -/
def atomic (e : FormatElement) : Bool :=
  match e with
  | .tag (.startGroup _) => false
  | .tag .endGroup => false
  | .interned _ _ => false
  | .bestFitting _ => false
  | _ => true

mutual

def treeWF : DocTree → Bool
  | .atom e => atomic e
  | .group _ cs => forestWF cs
  | .bestFit vs => variantsWF vs
  | .ref _ cs => forestWF cs

def forestWF : List DocTree → Bool
  | [] => true
  | t :: ts => treeWF t && forestWF ts

def variantsWF : List (List DocTree) → Bool
  | [] => true
  | v :: vs => forestWF v && variantsWF vs

end

mutual

/-- All group-cell identities occurring in a tree (variants included). -/
def treeGrefs : DocTree → List Nat
  | .atom _ => []
  | .group g cs => g :: forestGrefs cs
  | .bestFit vs => variantsGrefs vs
  | .ref _ cs => forestGrefs cs

def forestGrefs : List DocTree → List Nat
  | [] => []
  | t :: ts => treeGrefs t ++ forestGrefs ts

def variantsGrefs : List (List DocTree) → List Nat
  | [] => []
  | v :: vs => forestGrefs v ++ variantsGrefs vs

end

mutual

/-- All interned identities occurring in a tree (variants included). -/
def treeIids : DocTree → List Nat
  | .atom _ => []
  | .group _ cs => forestIids cs
  | .bestFit vs => variantsIids vs
  | .ref iid cs => iid :: forestIids cs

def forestIids : List DocTree → List Nat
  | [] => []
  | t :: ts => treeIids t ++ forestIids ts

def variantsIids : List (List DocTree) → List Nat
  | [] => []
  | v :: vs => forestIids v ++ variantsIids vs

end

mutual

/-- From the claim's words: a tree expands when it is an expanding element,
a group that is already expanded (non-flat mode) or whose contents expand,
or an interned reference whose shared content expands.  A `BestFitting` is
an expansion boundary and never expands by itself. -/
def treeExpands (m : Nat → GroupMode) : DocTree → Bool
  | .atom e => atom_expands e
  | .group g cs => !(m g).is_flat || forestExpands m cs
  | .bestFit _ => false
  | .ref _ cs => forestExpands m cs

def forestExpands (m : Nat → GroupMode) : List DocTree → Bool
  | [] => false
  | t :: ts => treeExpands m t || forestExpands m ts

end

mutual

/-- From the claim's words: the group cells marked by the pre-pass — those
whose contents contain an expanding element or an already-expanded inner
group.  Groups inside `BestFitting` variants and inside interned
sub-documents are marked like any others. -/
def markedTree (m : Nat → GroupMode) : DocTree → Nat → Bool
  | .atom _, _ => false
  | .group g cs, x => (decide (g = x) && forestExpands m cs) || markedForest m cs x
  | .bestFit vs, x => markedVariants m vs x
  | .ref _ cs, x => markedForest m cs x

def markedForest (m : Nat → GroupMode) : List DocTree → Nat → Bool
  | [], _ => false
  | t :: ts, x => markedTree m t x || markedForest m ts x

def markedVariants (m : Nat → GroupMode) : List (List DocTree) → Nat → Bool
  | [], _ => false
  | v :: vs, x => markedForest m v x || markedVariants m vs x

end

mutual

/-- Occurrence of a group node with cell identity `g` and children `cs`
somewhere in a tree. -/
def GroupOccursTree (g : Nat) (cs : List DocTree) : DocTree → Prop
  | .atom _ => False
  | .group g' cs' => (g' = g ∧ cs' = cs) ∨ GroupOccursForest g cs cs'
  | .bestFit vs => GroupOccursVariants g cs vs
  | .ref _ cs' => GroupOccursForest g cs cs'

def GroupOccursForest (g : Nat) (cs : List DocTree) : List DocTree → Prop
  | [] => False
  | t :: ts => GroupOccursTree g cs t ∨ GroupOccursForest g cs ts

def GroupOccursVariants (g : Nat) (cs : List DocTree) :
    List (List DocTree) → Prop
  | [] => False
  | v :: vs => GroupOccursForest g cs v ∨ GroupOccursVariants g cs vs

end

/-- Whether the top of the enclosing stack is the group cell `x`. -/
def enc_top_group (enc : List Enclosing) (x : Nat) : Bool :=
  match enc with
  | .group g :: _ => decide (g = x)
  | _ => false

/-- The mode store described by the claim: marked cells become `Propagated`,
the innermost enclosing group additionally becomes `Propagated` when the
processed content expands, and every other cell is left unchanged. -/
def spec_modes (marked : Nat → Bool) (expands : Bool) (enc : List Enclosing)
    (m : Nat → GroupMode) : Nat → GroupMode :=
  fun x => if marked x then .propagated
    else if expands && enc_top_group enc x then .propagated
    else m x

/-! ## Theorems -/

mutual

theorem exec_op_extends (op : BufOp) (start : List FormatElement) :
    ∃ suffix, exec_op op start = some (start ++ suffix) := by
  match op with
  | .write e => exact ⟨[e], rfl⟩
  | .scoped body =>
    obtain ⟨s, hs⟩ := exec_ops_extends body start
    refine ⟨[], ?_⟩
    simp [exec_op, hs, restore_snapshot, vec_buffer_snapshot]
termination_by sizeOf op

theorem exec_ops_extends (ops : List BufOp) (start : List FormatElement) :
    ∃ suffix, exec_ops ops start = some (start ++ suffix) := by
  match ops with
  | [] => exact ⟨[], by simp [exec_ops]⟩
  | op :: rest =>
    obtain ⟨s1, h1⟩ := exec_op_extends op start
    obtain ⟨s2, h2⟩ := exec_ops_extends rest (start ++ s1)
    exact ⟨s1 ++ s2, by simp [exec_ops, h1, h2]⟩
termination_by sizeOf ops

end

/-- C8: restoring a `VecBuffer` snapshot taken at `position` when the buffer
holds at least that many elements succeeds and truncates the buffer to its
first `position` elements; restoring when the buffer holds fewer elements is
rejected (the assertion fails); and for every program of writes and
well-nested (LIFO, restored-once) snapshot scopes the rejection branch is
unreachable: execution always succeeds and only ever extends the buffer. -/
theorem vec_buffer_snapshot_restore_correct (elements : List FormatElement)
    (position : Nat) :
    (position ≤ elements.length →
      restore_snapshot elements position = some (elements.take position)) ∧
    (elements.length < position → restore_snapshot elements position = none) ∧
    (∀ (ops : List BufOp) (start : List FormatElement),
      ∃ suffix, exec_ops ops start = some (start ++ suffix)) := by
  refine ⟨fun h => ?_, fun h => ?_, exec_ops_extends⟩
  · simp [restore_snapshot, h]
  · simp [restore_snapshot]
    omega

/-- Witness for C8 at a concrete buffer, snapshot position and program. -/
theorem vec_buffer_snapshot_restore_correct_witness :
    restore_snapshot [FormatElement.space, FormatElement.space] 1 =
      some [FormatElement.space] ∧
    restore_snapshot [FormatElement.space] 2 = none ∧
    ∃ suffix,
      exec_ops [.scoped [.write FormatElement.space], .write FormatElement.space] [] =
        some ([] ++ suffix) := by
  have h := vec_buffer_snapshot_restore_correct
    [FormatElement.space, FormatElement.space] 1
  have h2 := vec_buffer_snapshot_restore_correct [FormatElement.space] 2
  exact ⟨by simpa using h.1 (by decide), by simpa using h2.2.1 (by decide),
    h.2.2 [.scoped [.write FormatElement.space], .write FormatElement.space] []⟩

/-- C7: constructing an `IndentWidth` from a `u8` succeeds iff the value is
between 0 and 24, constructing a `LineWidth` from a `u16` succeeds iff the
value is between 1 and 320, and every out-of-range value yields the
corresponding error value instead of a configured option. -/
theorem try_from_ranges (v8 v16 : Nat) (_h8 : v8 < 256) (_h16 : v16 < 65536) :
    ((∃ w, BaseIndentWidth.try_from v8 = .ok w) ↔ v8 ≤ 24) ∧
    ((∃ w, BaseLineWidth.try_from v16 = .ok w) ↔ 1 ≤ v16 ∧ v16 ≤ 320) ∧
    (¬ v8 ≤ 24 → BaseIndentWidth.try_from v8 = .error ⟨v8⟩) ∧
    (¬ (1 ≤ v16 ∧ v16 ≤ 320) → BaseLineWidth.try_from v16 = .error ⟨v16⟩) := by
  unfold BaseIndentWidth.try_from BaseLineWidth.try_from
  unfold BaseIndentWidth.MIN BaseIndentWidth.MAX BaseLineWidth.MIN BaseLineWidth.MAX
  refine ⟨?_, ?_, ?_, ?_⟩ <;> split_ifs <;> simp_all

/-- Witness for C7 at concrete in-range and out-of-range values. -/
theorem try_from_ranges_witness :
    ((∃ w, BaseIndentWidth.try_from 24 = .ok w) ↔ 24 ≤ 24) ∧
    ((∃ w, BaseLineWidth.try_from 321 = .ok w) ↔ 1 ≤ 321 ∧ 321 ≤ 320) ∧
    (¬ 24 ≤ 24 → BaseIndentWidth.try_from 24 = .error ⟨24⟩) ∧
    (¬ (1 ≤ 321 ∧ 321 ≤ 320) → BaseLineWidth.try_from 321 = .error ⟨321⟩) :=
  try_from_ranges 24 321 (by decide) (by decide)

/-- C5 (code bug): evaluating the code at the failing input — the `Default`
impl of the options-layer `LineWidth` (`options.rs` lines 136-140) yields 8,
not the documented 80 (`options.rs` line 15 and the spec say the line width
defaults to 80; the source itself carries the comment `TODO: Revert to 80`).
The validated range of the base-formatter `LineWidth` is 1..=320 with
default 80, as the claim states. -/
theorem options_line_width_default_is_8 :
    FormatOptions.default.line_width = OptLineWidth.default ∧
    OptLineWidth.default.value = 8 ∧
    OptLineWidth.default.value ≠ 80 ∧
    BaseLineWidth.default.value = 80 := by
  decide

/-- C6 counterexample: the IR emitted for `const a=1` is not the claimed
all-`text` sequence — the identifier and the number are emitted with
`dynamic_text`, not `text`. -/
theorem c6_claimed_ir_refuted :
    Program.fmt_fields ast_const_a_1 FormatOptions.default ≠
      [text "const", space, text "a", text " = ", text "1", text ";"] := by
  decide

/-- C6 (amended): formatting `const a=1` with default options emits exactly
`[text "const", space, dynamic_text "a", text " = ", dynamic_text "1",
text ";"]`, and the printed output is `const a = 1;` at every line width. -/
theorem const_a_ir_and_output (width : Nat) :
    Program.fmt_fields ast_const_a_1 FormatOptions.default =
      [text "const", space, dynamic_text "a", text " = ",
       dynamic_text "1", text ";"] ∧
    print_doc width (Program.fmt_fields ast_const_a_1 FormatOptions.default) =
      some "const a = 1;" :=
  ⟨by decide, by rfl⟩

/-- C4 counterexample: with options indent_style=Space, indent_width=2,
line_ending=Lf, semicolons=Always and line_width=8, the input
`const c=[2,3,4]` does not print as the claimed expanded multi-line array. -/
theorem c4_claimed_output_refuted :
    print_doc 8 (Program.fmt_fields ast_const_c_array scenario_options) ≠
      some "const c = [\n  2, 3, 4,\n];" := by
  decide

/-- C4 (amended): the input `const c=[2,3,4]` prints as the single flat line
`const c = [2, 3, 4];` at every line width (in particular at line_width 8):
`ArrayExpression::fmt_fields` emits no group, no soft line breaks and no
trailing comma, so the array can never expand. -/
theorem const_c_array_prints_flat (width : Nat) :
    print_doc width (Program.fmt_fields ast_const_c_array scenario_options) =
      some "const c = [2, 3, 4];" := by
  rfl

theorem loop_phase_nil (cache : InternedCache) (stack : List Condition) :
    loop_phase [] cache stack = ([], cache, stack) := by
  simp [loop_phase]

theorem loop_phase_start_cond (condition : Condition) (rest : List FormatElement)
    (cache : InternedCache) (stack : List Condition) :
    loop_phase (.tag (.startConditionalContent condition) :: rest) cache stack =
      loop_phase rest cache (condition :: stack) := by
  simp [loop_phase]

theorem loop_phase_end_cond (rest : List FormatElement)
    (cache : InternedCache) (stack : List Condition) :
    loop_phase (.tag .endConditionalContent :: rest) cache stack =
      loop_phase rest cache stack.tail := by
  simp [loop_phase]

theorem loop_phase_drop (e : FormatElement) (rest : List FormatElement)
    (cache : InternedCache) (stack : List Condition)
    (hx : is_in_expanded_conditional_content stack = true)
    (h1 : ∀ condition, e ≠ .tag (.startConditionalContent condition))
    (h2 : e ≠ .tag .endConditionalContent) :
    loop_phase (e :: rest) cache stack = loop_phase rest cache stack := by
  cases e with
  | tag t => cases t <;> simp_all [loop_phase]
  | line m => cases m <;> simp [loop_phase, hx]
  | _ => simp [loop_phase, hx]

theorem loop_phase_soft (rest : List FormatElement)
    (cache : InternedCache) (stack : List Condition)
    (hx : is_in_expanded_conditional_content stack = false) :
    loop_phase (.line .soft :: rest) cache stack = loop_phase rest cache stack := by
  simp [loop_phase, hx]

theorem loop_phase_soft_or_space (rest : List FormatElement)
    (cache : InternedCache) (stack : List Condition)
    (hx : is_in_expanded_conditional_content stack = false) :
    loop_phase (.line .softOrSpace :: rest) cache stack =
      (.space :: (loop_phase rest cache stack).1,
        (loop_phase rest cache stack).2) := by
  simp [loop_phase, hx]

theorem loop_phase_best_fitting (variants : List (List FormatElement))
    (rest : List FormatElement) (cache : InternedCache) (stack : List Condition)
    (hx : is_in_expanded_conditional_content stack = false) :
    loop_phase (.bestFitting variants :: rest) cache stack =
      loop_phase (most_flat variants ++ rest) cache stack := by
  simp [loop_phase, hx]

theorem loop_phase_pass (e : FormatElement) (rest : List FormatElement)
    (cache : InternedCache) (stack : List Condition)
    (hx : is_in_expanded_conditional_content stack = false)
    (hp : rsl_passthrough e = true) :
    loop_phase (e :: rest) cache stack =
      (e :: (loop_phase rest cache stack).1, (loop_phase rest cache stack).2) := by
  cases e with
  | tag t => cases t <;> simp_all [loop_phase, rsl_passthrough]
  | line m => cases m <;> simp_all [loop_phase, rsl_passthrough]
  | interned iid inner => simp [rsl_passthrough] at hp
  | bestFitting variants => simp [rsl_passthrough] at hp
  | _ => simp [loop_phase, hx]

theorem loop_phase_interned_eq (iid : Nat) (inner rest : List FormatElement)
    (cache : InternedCache) (stack : List Condition)
    (hx : is_in_expanded_conditional_content stack = false) :
    loop_phase (.interned iid inner :: rest) cache stack =
      (.interned iid (clean_interned iid inner cache stack).1.1 ::
          (loop_phase rest (clean_interned iid inner cache stack).2.1
            (clean_interned iid inner cache stack).2.2).1,
        (loop_phase rest (clean_interned iid inner cache stack).2.1
          (clean_interned iid inner cache stack).2.2).2) := by
  rcases h : clean_interned iid inner cache stack with ⟨⟨cleaned, changed⟩, cache1, stack1⟩
  simp [loop_phase, hx, h]

theorem loop_phase_output_ok (els : List FormatElement) (cache : InternedCache)
    (stack : List Condition) :
    ∀ out ∈ (loop_phase els cache stack).1, rsl_output_ok out = true := by
  refine loop_phase.induct (fun _ _ _ _ => True) (fun _ _ _ => True)
    (fun els cache stack => ∀ out ∈ (loop_phase els cache stack).1, rsl_output_ok out = true)
    ?c1 ?c2 ?c3 ?c4 ?s1 ?s2 ?s3 ?s4 ?s5 ?s6 ?s7 ?s8 ?s9
    ?l1 ?l2 ?l3 ?l4 ?l5 ?l6 ?l7 ?l8 ?l9 els cache stack
  case c1 => intros; trivial
  case c2 => intros; trivial
  case c3 => intros; trivial
  case c4 => intros; trivial
  case s1 => intros; trivial
  case s2 => intros; trivial
  case s3 => intros; trivial
  case s4 => intros; trivial
  case s5 => intros; trivial
  case s6 => intros; trivial
  case s7 => intros; trivial
  case s8 => intros; trivial
  case s9 => intros; trivial
  case l1 =>
    intro cache stack out hout
    rw [loop_phase_nil] at hout
    simp at hout
  case l2 =>
    intro cache stack rest condition ih out hout
    rw [loop_phase_start_cond] at hout
    exact ih out hout
  case l3 =>
    intro cache stack rest ih out hout
    rw [loop_phase_end_cond] at hout
    exact ih out hout
  case l4 =>
    intro cache stack rest e' h1 h2 hx ih out hout
    rw [loop_phase_drop e' rest cache stack hx
      (fun c hc => h1 c hc) (fun hc => h2 hc)] at hout
    exact ih out hout
  case l5 =>
    intro cache stack rest hx _ _ ih out hout
    rw [Bool.not_eq_true] at hx
    rw [loop_phase_soft rest cache stack hx] at hout
    exact ih out hout
  case l6 =>
    intro cache stack rest hx cleaned cache1 stack1 heq _ _ ih out hout
    rw [Bool.not_eq_true] at hx
    rw [loop_phase_soft_or_space rest cache stack hx] at hout
    cases hout with
    | head => rfl
    | tail _ h => exact ih out h
  case l7 =>
    intro cache stack rest hx iid inner cleaned_inner changed cache1 stack1 hclean
      cleaned cache2 stack2 hloop _ _ _ ih out hout
    rw [Bool.not_eq_true] at hx
    rw [loop_phase_interned_eq iid inner rest cache stack hx] at hout
    rw [hclean] at hout
    simp only at hout
    cases hout with
    | head => rfl
    | tail _ h => exact ih out h
  case l8 =>
    intro cache stack rest hx variants _ _ ih out hout
    rw [Bool.not_eq_true] at hx
    rw [loop_phase_best_fitting variants rest cache stack hx] at hout
    exact ih out hout
  case l9 =>
    intro cache stack rest hx e'' hn1 hn2 hn3 hn4 cleaned cache1 stack1 hloop
      hn5 hn6 ih out hout
    rw [Bool.not_eq_true] at hx
    have hp : rsl_passthrough e'' = true := by
      cases e'' with
      | line m =>
        cases m <;> simp [rsl_passthrough]
        · exact hn1 rfl
        · exact hn2 rfl
      | interned iid inner => exact absurd rfl (hn3 iid inner)
      | bestFitting variants => exact absurd rfl (hn4 variants)
      | tag t =>
        cases t <;> simp [rsl_passthrough]
        · rename_i condition; exact hn5 condition rfl
        · exact hn6 rfl
      | _ => rfl
    rw [loop_phase_pass e'' rest cache stack hx hp] at hout
    cases hout with
    | head =>
      cases e'' with
      | line m =>
        cases m <;> simp [rsl_output_ok]
        · exact hn1 rfl
        · exact hn2 rfl
      | bestFitting variants => exact absurd rfl (hn4 variants)
      | _ => rfl
    | tail _ h => exact ih out h

theorem propagate_expands_append (as bs : List FormatElement)
    (enc : List Enclosing) (st : PropagateState) :
    propagate_expands (as ++ bs) enc st =
      ((propagate_expands as enc st).1 ||
        (propagate_expands bs (propagate_expands as enc st).2.1
          (propagate_expands as enc st).2.2).1,
       (propagate_expands bs (propagate_expands as enc st).2.1
         (propagate_expands as enc st).2.2).2) := by
  induction as generalizing enc st with
  | nil => simp [propagate_expands]
  | cons e rest ih =>
    show propagate_expands (e :: (rest ++ bs)) enc st = _
    rcases h1 : propagate_expands_element e enc st with ⟨b, enc1, st1⟩
    simp only [propagate_expands, h1]
    rw [ih]
    rcases h2 : propagate_expands rest enc1
      (if b then { st1 with modes := expand_parent enc1 st1.modes } else st1) with
      ⟨b2, enc2, st2⟩
    rcases h3 : propagate_expands bs enc2 st2 with ⟨b3, enc3, st3⟩
    simp [Bool.or_assoc]

theorem propagate_expands_element_atomic (e : FormatElement)
    (enc : List Enclosing) (st : PropagateState) (h : atomic e = true) :
    propagate_expands_element e enc st = (atom_expands e, enc, st) := by
  cases e with
  | line m => cases m <;> simp [propagate_expands_element, atom_expands]
  | tag t => cases t <;> simp_all [propagate_expands_element, atom_expands, atomic]
  | interned iid c => simp [atomic] at h
  | bestFitting vs => simp [atomic] at h
  | _ => simp [propagate_expands_element, atom_expands]

theorem propagate_expands_element_expanding (e : FormatElement)
    (enc : List Enclosing) (st : PropagateState) (h : atom_expands e = true) :
    (propagate_expands_element e enc st).1 = true := by
  cases e with
  | line m => cases m <;> simp_all [propagate_expands_element, atom_expands]
  | _ => simp_all [propagate_expands_element, atom_expands]

theorem propagate_expands_mem_true (es : List FormatElement)
    (e : FormatElement) (enc : List Enclosing) (st : PropagateState)
    (hmem : e ∈ es) (hexp : atom_expands e = true) :
    (propagate_expands es enc st).1 = true := by
  induction es generalizing enc st with
  | nil => simp at hmem
  | cons a rest ih =>
    rcases List.mem_cons.mp hmem with heq | hmem'
    · subst heq
      have hb := propagate_expands_element_expanding e enc st hexp
      rcases h1 : propagate_expands_element e enc st with ⟨b, enc1, st1⟩
      rw [h1] at hb
      simp at hb
      rcases h2 : propagate_expands rest enc1
        (if b then { st1 with modes := expand_parent enc1 st1.modes } else st1) with
        ⟨b2, enc2, st2⟩
      simp only [propagate_expands, h1, h2]
      simp [hb]
    · rcases h1 : propagate_expands_element a enc st with ⟨b, enc1, st1⟩
      have hb2 := ih enc1
        (if b then { st1 with modes := expand_parent enc1 st1.modes } else st1) hmem'
      rcases h2 : propagate_expands rest enc1
        (if b then { st1 with modes := expand_parent enc1 st1.modes } else st1) with
        ⟨b2, enc2, st2⟩
      rw [h2] at hb2
      simp at hb2
      simp only [propagate_expands, h1, h2]
      simp [hb2]

mutual

theorem treeExpands_congr (t : DocTree) (m1 m2 : Nat → GroupMode)
    (h : ∀ x ∈ treeGrefs t, m1 x = m2 x) :
    treeExpands m1 t = treeExpands m2 t := by
  match t with
  | .atom e => rfl
  | .group g cs =>
    have hg : m1 g = m2 g := h g (by simp [treeGrefs])
    have hcs := forestExpands_congr cs m1 m2
      (fun x hx => h x (by simp [treeGrefs, hx]))
    simp [treeExpands, hg, hcs]
  | .bestFit vs => rfl
  | .ref iid cs =>
    have hcs := forestExpands_congr cs m1 m2 (fun x hx => h x (by simp [treeGrefs, hx]))
    simp [treeExpands, hcs]
termination_by sizeOf t

theorem forestExpands_congr (ts : List DocTree) (m1 m2 : Nat → GroupMode)
    (h : ∀ x ∈ forestGrefs ts, m1 x = m2 x) :
    forestExpands m1 ts = forestExpands m2 ts := by
  match ts with
  | [] => rfl
  | t :: ts' =>
    have h1 := treeExpands_congr t m1 m2 (fun x hx => h x (by simp [forestGrefs, hx]))
    have h2 := forestExpands_congr ts' m1 m2
      (fun x hx => h x (by simp [forestGrefs, hx]))
    simp [forestExpands, h1, h2]
termination_by sizeOf ts

end

mutual

theorem markedTree_congr (t : DocTree) (m1 m2 : Nat → GroupMode) (x : Nat)
    (h : ∀ y ∈ treeGrefs t, m1 y = m2 y) :
    markedTree m1 t x = markedTree m2 t x := by
  match t with
  | .atom e => rfl
  | .group g cs =>
    have hcs := forestExpands_congr cs m1 m2 (fun y hy => h y (by simp [treeGrefs, hy]))
    have hm := markedForest_congr cs m1 m2 x (fun y hy => h y (by simp [treeGrefs, hy]))
    simp [markedTree, hcs, hm]
  | .bestFit vs =>
    have hm := markedVariants_congr vs m1 m2 x (fun y hy => h y (by simp [treeGrefs, hy]))
    simp [markedTree, hm]
  | .ref iid cs =>
    have hm := markedForest_congr cs m1 m2 x (fun y hy => h y (by simp [treeGrefs, hy]))
    simp [markedTree, hm]
termination_by sizeOf t

theorem markedForest_congr (ts : List DocTree) (m1 m2 : Nat → GroupMode) (x : Nat)
    (h : ∀ y ∈ forestGrefs ts, m1 y = m2 y) :
    markedForest m1 ts x = markedForest m2 ts x := by
  match ts with
  | [] => rfl
  | t :: ts' =>
    have h1 := markedTree_congr t m1 m2 x (fun y hy => h y (by simp [forestGrefs, hy]))
    have h2 := markedForest_congr ts' m1 m2 x
      (fun y hy => h y (by simp [forestGrefs, hy]))
    simp [markedForest, h1, h2]
termination_by sizeOf ts

theorem markedVariants_congr (vs : List (List DocTree)) (m1 m2 : Nat → GroupMode)
    (x : Nat) (h : ∀ y ∈ variantsGrefs vs, m1 y = m2 y) :
    markedVariants m1 vs x = markedVariants m2 vs x := by
  match vs with
  | [] => rfl
  | v :: vs' =>
    have h1 := markedForest_congr v m1 m2 x (fun y hy => h y (by simp [variantsGrefs, hy]))
    have h2 := markedVariants_congr vs' m1 m2 x
      (fun y hy => h y (by simp [variantsGrefs, hy]))
    simp [markedVariants, h1, h2]
termination_by sizeOf vs

end

mutual

theorem markedTree_sub (t : DocTree) (m : Nat → GroupMode) (x : Nat)
    (h : markedTree m t x = true) : x ∈ treeGrefs t := by
  match t with
  | .atom e => simp [markedTree] at h
  | .group g cs =>
    simp only [markedTree, Bool.or_eq_true, Bool.and_eq_true, decide_eq_true_eq] at h
    rcases h with ⟨rfl, _⟩ | h
    · simp [treeGrefs]
    · simp [treeGrefs, markedForest_sub cs m x h]
  | .bestFit vs =>
    simp only [markedTree] at h
    simp [treeGrefs, markedVariants_sub vs m x h]
  | .ref iid cs =>
    simp only [markedTree] at h
    simp [treeGrefs, markedForest_sub cs m x h]
termination_by sizeOf t

theorem markedForest_sub (ts : List DocTree) (m : Nat → GroupMode) (x : Nat)
    (h : markedForest m ts x = true) : x ∈ forestGrefs ts := by
  match ts with
  | [] => simp [markedForest] at h
  | t :: ts' =>
    simp only [markedForest, Bool.or_eq_true] at h
    rcases h with h | h
    · simp [forestGrefs, markedTree_sub t m x h]
    · simp [forestGrefs, markedForest_sub ts' m x h]
termination_by sizeOf ts

theorem markedVariants_sub (vs : List (List DocTree)) (m : Nat → GroupMode)
    (x : Nat) (h : markedVariants m vs x = true) : x ∈ variantsGrefs vs := by
  match vs with
  | [] => simp [markedVariants] at h
  | v :: vs' =>
    simp only [markedVariants, Bool.or_eq_true] at h
    rcases h with h | h
    · simp [variantsGrefs, markedForest_sub v m x h]
    · simp [variantsGrefs, markedVariants_sub vs' m x h]
termination_by sizeOf vs

end

theorem markedTree_of_not_mem (t : DocTree) (m : Nat → GroupMode) (x : Nat)
    (h : x ∉ treeGrefs t) : markedTree m t x = false := by
  cases hm : markedTree m t x with
  | false => rfl
  | true => exact absurd (markedTree_sub t m x hm) h

theorem markedForest_of_not_mem (ts : List DocTree) (m : Nat → GroupMode) (x : Nat)
    (h : x ∉ forestGrefs ts) : markedForest m ts x = false := by
  cases hm : markedForest m ts x with
  | false => rfl
  | true => exact absurd (markedForest_sub ts m x hm) h

theorem markedVariants_of_not_mem (vs : List (List DocTree)) (m : Nat → GroupMode)
    (x : Nat) (h : x ∉ variantsGrefs vs) : markedVariants m vs x = false := by
  cases hm : markedVariants m vs x with
  | false => rfl
  | true => exact absurd (markedVariants_sub vs m x hm) h

theorem lookup_interned_cons (a : Nat) (b : Bool) (c : List (Nat × Bool)) (x : Nat) :
    lookup_interned ((a, b) :: c) x = if a = x then some b else lookup_interned c x := by
  by_cases h : a = x <;> simp [lookup_interned, List.find?_cons, h]

theorem enc_top_group_mem (enc : List Enclosing) (x : Nat)
    (h : enc_top_group enc x = true) : Enclosing.group x ∈ enc := by
  cases enc with
  | nil => simp [enc_top_group] at h
  | cons e rest =>
    cases e with
    | group g =>
      simp only [enc_top_group, decide_eq_true_eq] at h
      subst h
      exact List.mem_cons_self _ _
    | bestFitting => simp [enc_top_group] at h

theorem expand_parent_eq_spec (enc : List Enclosing) (m : Nat → GroupMode) :
    expand_parent enc m =
      fun x => if enc_top_group enc x then GroupMode.propagated else m x := by
  funext x
  cases enc with
  | nil => simp [expand_parent, enc_top_group]
  | cons e rest =>
    cases e with
    | group p =>
      by_cases h : p = x <;>
        simp [expand_parent, enc_top_group, mark_propagated, h]
      exact fun hc => absurd hc.symm h
    | bestFitting => simp [expand_parent, enc_top_group]

mutual

theorem groupOccursTree_gref (g : Nat) (cs : List DocTree) (t : DocTree)
    (h : GroupOccursTree g cs t) : g ∈ treeGrefs t := by
  match t with
  | .atom e => exact absurd h (by simp [GroupOccursTree])
  | .group g' cs' =>
    rcases h with ⟨rfl, rfl⟩ | hocc
    · simp [treeGrefs]
    · simp [treeGrefs, groupOccursForest_gref g cs cs' hocc]
  | .bestFit vs => simpa [treeGrefs] using groupOccursVariants_gref g cs vs h
  | .ref iid cs' => simpa [treeGrefs] using groupOccursForest_gref g cs cs' h
termination_by sizeOf t

theorem groupOccursForest_gref (g : Nat) (cs : List DocTree) (ts : List DocTree)
    (h : GroupOccursForest g cs ts) : g ∈ forestGrefs ts := by
  match ts with
  | [] => exact absurd h (by simp [GroupOccursForest])
  | t :: ts' =>
    rcases h with h | h
    · simp [forestGrefs, groupOccursTree_gref g cs t h]
    · simp [forestGrefs, groupOccursForest_gref g cs ts' h]
termination_by sizeOf ts

theorem groupOccursVariants_gref (g : Nat) (cs : List DocTree)
    (vs : List (List DocTree)) (h : GroupOccursVariants g cs vs) :
    g ∈ variantsGrefs vs := by
  match vs with
  | [] => exact absurd h (by simp [GroupOccursVariants])
  | v :: vs' =>
    rcases h with h | h
    · simp [variantsGrefs, groupOccursForest_gref g cs v h]
    · simp [variantsGrefs, groupOccursVariants_gref g cs vs' h]
termination_by sizeOf vs

end

mutual

theorem markedTree_of_occ (t : DocTree) (m : Nat → GroupMode) (g : Nat)
    (cs : List DocTree) (hnd : (treeGrefs t).Nodup) (h : GroupOccursTree g cs t) :
    markedTree m t g = forestExpands m cs := by
  match t with
  | .atom e => exact absurd h (by simp [GroupOccursTree])
  | .group g' cs' =>
    simp only [treeGrefs, List.nodup_cons] at hnd
    rcases h with ⟨rfl, rfl⟩ | hocc
    · simp [markedTree, markedForest_of_not_mem cs' m g' hnd.1]
    · have hne : g' ≠ g := by
        intro hc
        subst hc
        exact hnd.1 (groupOccursForest_gref g' cs cs' hocc)
      simp [markedTree, hne, markedForest_of_occ cs' m g cs hnd.2 hocc]
  | .bestFit vs =>
    simp only [treeGrefs] at hnd
    simpa [markedTree] using markedVariants_of_occ vs m g cs hnd h
  | .ref iid cs' =>
    simp only [treeGrefs] at hnd
    simpa [markedTree] using markedForest_of_occ cs' m g cs hnd h
termination_by sizeOf t

theorem markedForest_of_occ (ts : List DocTree) (m : Nat → GroupMode) (g : Nat)
    (cs : List DocTree) (hnd : (forestGrefs ts).Nodup)
    (h : GroupOccursForest g cs ts) : markedForest m ts g = forestExpands m cs := by
  match ts with
  | [] => exact absurd h (by simp [GroupOccursForest])
  | t :: ts' =>
    simp only [forestGrefs, List.nodup_append] at hnd
    rcases h with h | h
    · have h2 : markedForest m ts' g = false :=
        markedForest_of_not_mem ts' m g
          (fun hin => hnd.2.2 (groupOccursTree_gref g cs t h) hin)
      simp [markedForest, h2, markedTree_of_occ t m g cs hnd.1 h]
    · have h1 : markedTree m t g = false :=
        markedTree_of_not_mem t m g
          (fun hin => hnd.2.2 hin (groupOccursForest_gref g cs ts' h))
      simp [markedForest, h1, markedForest_of_occ ts' m g cs hnd.2.1 h]
termination_by sizeOf ts

theorem markedVariants_of_occ (vs : List (List DocTree)) (m : Nat → GroupMode)
    (g : Nat) (cs : List DocTree) (hnd : (variantsGrefs vs).Nodup)
    (h : GroupOccursVariants g cs vs) :
    markedVariants m vs g = forestExpands m cs := by
  match vs with
  | [] => exact absurd h (by simp [GroupOccursVariants])
  | v :: vs' =>
    simp only [variantsGrefs, List.nodup_append] at hnd
    rcases h with h | h
    · have h2 : markedVariants m vs' g = false :=
        markedVariants_of_not_mem vs' m g
          (fun hin => hnd.2.2 (groupOccursForest_gref g cs v h) hin)
      simp [markedVariants, h2, markedForest_of_occ v m g cs hnd.1 h]
    · have h1 : markedForest m v g = false :=
        markedForest_of_not_mem v m g
          (fun hin => hnd.2.2 hin (groupOccursVariants_gref g cs vs' h))
      simp [markedVariants, h1, markedVariants_of_occ vs' m g cs hnd.2.1 h]
termination_by sizeOf vs

end

theorem pe_end_group (g : Nat) (enc : List Enclosing) (st : PropagateState) :
    propagate_expands [.tag .endGroup] (.group g :: enc) st =
      ((!(st.modes g).is_flat), enc,
        if (!(st.modes g).is_flat) then
          { st with modes := expand_parent enc st.modes } else st) := by
  cases h : (st.modes g).is_flat <;>
    simp [propagate_expands, propagate_expands_element, h]

theorem pe_group_compose (g : Nat) (content : List FormatElement)
    (enc : List Enclosing) (st : PropagateState) (b : Bool)
    (F1 : Nat → GroupMode) (cache1 : List (Nat × Bool))
    (hpe : propagate_expands content (.group g :: enc) st =
      (b, .group g :: enc, ⟨F1, cache1⟩)) :
    propagate_expands (.tag (.startGroup g) :: (content ++ [.tag .endGroup]))
      enc st =
      ((b || !(F1 g).is_flat), enc,
        if (!(F1 g).is_flat) then
          (⟨expand_parent enc F1, cache1⟩ : PropagateState)
        else ⟨F1, cache1⟩) := by
  simp only [propagate_expands, propagate_expands_element, Bool.false_eq_true,
    if_false]
  rw [propagate_expands_append, hpe]
  simp only [pe_end_group]
  cases h : (F1 g).is_flat <;> simp [h]

theorem pe_best_fitting_compose (variants : List (List FormatElement))
    (enc : List Enclosing) (st st1 : PropagateState)
    (hpv : propagate_expands_variants variants (.bestFitting :: enc) st =
      (.bestFitting :: enc, st1)) :
    propagate_expands [.bestFitting variants] enc st = (false, enc, st1) := by
  simp [propagate_expands, propagate_expands_element, hpv]

theorem pe_interned_compose (iid : Nat) (content : List FormatElement)
    (enc : List Enclosing) (st : PropagateState) (b : Bool)
    (F1 : Nat → GroupMode) (cache1 : List (Nat × Bool))
    (hmiss : lookup_interned st.checked_interned iid = none)
    (hpe : propagate_expands content enc st = (b, enc, ⟨F1, cache1⟩)) :
    propagate_expands [.interned iid content] enc st =
      (b, enc,
        if b then
          (⟨expand_parent enc F1, (iid, b) :: cache1⟩ : PropagateState)
        else ⟨F1, (iid, b) :: cache1⟩) := by
  simp only [propagate_expands, propagate_expands_element, hmiss, hpe]
  cases b <;> simp

mutual

/-- The stack-machine/spec correspondence for one document tree:
`propagate_expands` on the flattened tree returns the spec expansion bit,
leaves the enclosing stack unchanged, and updates the mode store exactly as
the claim describes (`spec_modes`). -/
theorem pe_tree (t : DocTree) (enc : List Enclosing) (m : Nat → GroupMode)
    (cache : List (Nat × Bool))
    (hwf : treeWF t = true) (hnd : (treeGrefs t).Nodup)
    (hni : (treeIids t).Nodup)
    (henc : ∀ g, Enclosing.group g ∈ enc → g ∉ treeGrefs t)
    (hcache : ∀ iid ∈ treeIids t, lookup_interned cache iid = none) :
    ∃ cache', propagate_expands (flattenTree t) enc ⟨m, cache⟩ =
        (treeExpands m t, enc,
          ⟨spec_modes (markedTree m t) (treeExpands m t) enc m, cache'⟩) ∧
      ∀ iid, iid ∉ treeIids t →
        lookup_interned cache' iid = lookup_interned cache iid := by
  match t with
  | .atom e =>
    refine ⟨cache, ?_, fun iid _ => rfl⟩
    have ha : atomic e = true := by simpa [treeWF] using hwf
    have h1 := propagate_expands_element_atomic e enc ⟨m, cache⟩ ha
    show propagate_expands [e] enc ⟨m, cache⟩ = _
    simp only [propagate_expands, h1]
    cases hae : atom_expands e with
    | false =>
      have hm : spec_modes (markedTree m (DocTree.atom e))
          (treeExpands m (DocTree.atom e)) enc m = m := by
        funext x
        simp [spec_modes, markedTree, treeExpands, hae]
      rw [hm]
      simp [treeExpands, hae]
    | true =>
      have hm : spec_modes (markedTree m (DocTree.atom e))
          (treeExpands m (DocTree.atom e)) enc m = expand_parent enc m := by
        rw [expand_parent_eq_spec]
        funext x
        simp [spec_modes, markedTree, treeExpands, hae]
      rw [hm]
      simp [treeExpands, hae]
  | .group g cs =>
    have hwf' : forestWF cs = true := by simpa [treeWF] using hwf
    have hnd0 : g ∉ forestGrefs cs ∧ (forestGrefs cs).Nodup := by
      simpa [treeGrefs, List.nodup_cons] using hnd
    have hni' : (forestIids cs).Nodup := by simpa [treeIids] using hni
    have henc' : ∀ p, Enclosing.group p ∈ (Enclosing.group g :: enc) →
        p ∉ forestGrefs cs := by
      intro p hp hin
      rcases List.mem_cons.mp hp with heq | hp'
      · cases heq
        exact hnd0.1 hin
      · exact henc p hp' (by simp [treeGrefs, hin])
    have hcache' : ∀ iid ∈ forestIids cs, lookup_interned cache iid = none := by
      intro iid hi
      exact hcache iid (by simpa [treeIids] using hi)
    obtain ⟨cache1, hpe, hpres⟩ :=
      pe_forest cs (Enclosing.group g :: enc) m cache hwf' hnd0.2 hni' henc' hcache'
    refine ⟨cache1, ?_, fun iid hi => hpres iid (by simpa [treeIids] using hi)⟩
    show propagate_expands
      (.tag (.startGroup g) :: (flattenForest cs ++ [.tag .endGroup])) enc
      ⟨m, cache⟩ = _
    rw [pe_group_compose g (flattenForest cs) enc ⟨m, cache⟩ (forestExpands m cs)
      _ cache1 hpe]
    have hF1g : spec_modes (markedForest m cs) (forestExpands m cs)
        (Enclosing.group g :: enc) m g =
        if forestExpands m cs then .propagated else m g := by
      simp [spec_modes, markedForest_of_not_mem cs m g hnd0.1, enc_top_group]
    rw [hF1g]
    have hgenc : enc_top_group enc g = false := by
      cases h : enc_top_group enc g with
      | false => rfl
      | true =>
        exact absurd (show g ∈ treeGrefs (DocTree.group g cs) by simp [treeGrefs])
          (henc g (enc_top_group_mem enc g h))
    cases hfe : forestExpands m cs with
    | true =>
      have hmode : spec_modes (markedTree m (DocTree.group g cs))
          (treeExpands m (DocTree.group g cs)) enc m =
          expand_parent enc (spec_modes (markedForest m cs) (forestExpands m cs)
            (Enclosing.group g :: enc) m) := by
        rw [expand_parent_eq_spec]
        funext x
        by_cases h2 : g = x
        · subst h2
          by_cases h1 : markedForest m cs g <;>
            simp [spec_modes, markedTree, treeExpands, hfe, h1, hgenc,
              enc_top_group]
        · by_cases h1 : markedForest m cs x <;>
            by_cases h3 : enc_top_group enc x <;>
              simp [spec_modes, markedTree, treeExpands, hfe, h1, h2, h3,
                enc_top_group]
      rw [hmode]
      simp [treeExpands, hfe, GroupMode.is_flat]
    | false =>
      cases hmf : (m g).is_flat with
      | true =>
        have hmode : spec_modes (markedTree m (DocTree.group g cs))
            (treeExpands m (DocTree.group g cs)) enc m =
            spec_modes (markedForest m cs) (forestExpands m cs)
              (Enclosing.group g :: enc) m := by
          funext x
          by_cases h2 : g = x
          · subst h2
            by_cases h1 : markedForest m cs g <;>
              simp [spec_modes, markedTree, treeExpands, hfe, hmf, h1, hgenc,
                enc_top_group]
          · by_cases h1 : markedForest m cs x <;>
              by_cases h3 : enc_top_group enc x <;>
                simp [spec_modes, markedTree, treeExpands, hfe, hmf, h1, h2, h3,
                  enc_top_group]
        rw [hmode]
        simp [treeExpands, hfe, hmf]
      | false =>
        have hmode : spec_modes (markedTree m (DocTree.group g cs))
            (treeExpands m (DocTree.group g cs)) enc m =
            expand_parent enc (spec_modes (markedForest m cs) (forestExpands m cs)
              (Enclosing.group g :: enc) m) := by
          rw [expand_parent_eq_spec]
          funext x
          by_cases h2 : g = x
          · subst h2
            by_cases h1 : markedForest m cs g <;>
              simp [spec_modes, markedTree, treeExpands, hfe, hmf, h1, hgenc,
                enc_top_group]
          · by_cases h1 : markedForest m cs x <;>
              by_cases h3 : enc_top_group enc x <;>
                simp [spec_modes, markedTree, treeExpands, hfe, hmf, h1, h2, h3,
                  enc_top_group]
        rw [hmode]
        simp [treeExpands, hfe, hmf]
  | .bestFit vs =>
    have hwf' : variantsWF vs = true := by simpa [treeWF] using hwf
    have hnd' : (variantsGrefs vs).Nodup := by simpa [treeGrefs] using hnd
    have hni' : (variantsIids vs).Nodup := by simpa [treeIids] using hni
    have henc' : ∀ g, Enclosing.group g ∈ (Enclosing.bestFitting :: enc) →
        g ∉ variantsGrefs vs := by
      intro g hg hin
      rcases List.mem_cons.mp hg with heq | hg'
      · cases heq
      · exact henc g hg' (by simpa [treeGrefs] using hin)
    have henc0 : ∀ x, enc_top_group (Enclosing.bestFitting :: enc) x = false :=
      fun x => rfl
    have hcache' : ∀ iid ∈ variantsIids vs, lookup_interned cache iid = none := by
      intro iid hi
      exact hcache iid (by simpa [treeIids] using hi)
    obtain ⟨cache1, hpv, hpres⟩ :=
      pe_variants vs (Enclosing.bestFitting :: enc) m cache hwf' hnd' hni'
        henc' henc0 hcache'
    refine ⟨cache1, ?_, fun iid hi => hpres iid (by simpa [treeIids] using hi)⟩
    show propagate_expands [.bestFitting (flattenVariants vs)] enc ⟨m, cache⟩ = _
    rw [pe_best_fitting_compose (flattenVariants vs) enc ⟨m, cache⟩ _ hpv]
    have hmode : spec_modes (markedTree m (DocTree.bestFit vs))
        (treeExpands m (DocTree.bestFit vs)) enc m =
        fun x => if markedVariants m vs x then GroupMode.propagated else m x := by
      funext x
      simp [spec_modes, markedTree, treeExpands]
    rw [hmode]
    simp [treeExpands]
  | .ref iid cs =>
    have hwf' : forestWF cs = true := by simpa [treeWF] using hwf
    have hnd' : (forestGrefs cs).Nodup := by simpa [treeGrefs] using hnd
    have hni0 : iid ∉ forestIids cs ∧ (forestIids cs).Nodup := by
      simpa [treeIids, List.nodup_cons] using hni
    have henc' : ∀ g, Enclosing.group g ∈ enc → g ∉ forestGrefs cs := by
      intro g hg
      exact fun hin => henc g hg (by simpa [treeGrefs] using hin)
    have hcache' : ∀ i ∈ forestIids cs, lookup_interned cache i = none := by
      intro i hi
      exact hcache i (by simp [treeIids, hi])
    have hmiss : lookup_interned cache iid = none :=
      hcache iid (by simp [treeIids])
    obtain ⟨cache1, hpe, hpres⟩ :=
      pe_forest cs enc m cache hwf' hnd' hni0.2 henc' hcache'
    refine ⟨(iid, forestExpands m cs) :: cache1, ?_, ?_⟩
    · show propagate_expands [.interned iid (flattenForest cs)] enc ⟨m, cache⟩ = _
      rw [pe_interned_compose iid (flattenForest cs) enc ⟨m, cache⟩
        (forestExpands m cs) _ cache1 hmiss hpe]
      have hmode : spec_modes (markedTree m (DocTree.ref iid cs))
          (treeExpands m (DocTree.ref iid cs)) enc m =
          (if forestExpands m cs then
            expand_parent enc (spec_modes (markedForest m cs) (forestExpands m cs)
              enc m)
           else spec_modes (markedForest m cs) (forestExpands m cs) enc m) := by
        cases hfe : forestExpands m cs with
        | false =>
          funext x
          simp [spec_modes, markedTree, treeExpands, hfe]
        | true =>
          rw [if_pos rfl, expand_parent_eq_spec]
          funext x
          by_cases h1 : markedForest m cs x <;>
            by_cases h3 : enc_top_group enc x <;>
              simp [spec_modes, markedTree, treeExpands, hfe, h1, h3]
      rw [hmode]
      cases hfe : forestExpands m cs <;>
        simp [treeExpands, hfe]
    · intro i hi
      have hne : iid ≠ i := by
        intro hc
        exact hi (by simp [treeIids, hc])
      rw [lookup_interned_cons]
      simp only [if_neg hne]
      exact hpres i (fun hin => hi (by simp [treeIids, hin]))
termination_by sizeOf t

theorem pe_forest (ts : List DocTree) (enc : List Enclosing) (m : Nat → GroupMode)
    (cache : List (Nat × Bool))
    (hwf : forestWF ts = true) (hnd : (forestGrefs ts).Nodup)
    (hni : (forestIids ts).Nodup)
    (henc : ∀ g, Enclosing.group g ∈ enc → g ∉ forestGrefs ts)
    (hcache : ∀ iid ∈ forestIids ts, lookup_interned cache iid = none) :
    ∃ cache', propagate_expands (flattenForest ts) enc ⟨m, cache⟩ =
        (forestExpands m ts, enc,
          ⟨spec_modes (markedForest m ts) (forestExpands m ts) enc m, cache'⟩) ∧
      ∀ iid, iid ∉ forestIids ts →
        lookup_interned cache' iid = lookup_interned cache iid := by
  match ts with
  | [] =>
    refine ⟨cache, ?_, fun iid _ => rfl⟩
    have hm : spec_modes (markedForest m []) (forestExpands m []) enc m = m := by
      funext x
      simp [spec_modes, markedForest, forestExpands]
    rw [hm]
    show propagate_expands [] enc ⟨m, cache⟩ = _
    simp [propagate_expands, forestExpands]
  | t :: ts' =>
    have hwf1 : treeWF t = true := by
      have := hwf
      simp [forestWF, Bool.and_eq_true] at this
      exact this.1
    have hwf2 : forestWF ts' = true := by
      have := hwf
      simp [forestWF, Bool.and_eq_true] at this
      exact this.2
    have hndsplit : (treeGrefs t).Nodup ∧ (forestGrefs ts').Nodup ∧
        ∀ x ∈ treeGrefs t, x ∉ forestGrefs ts' := by
      have := hnd
      simp only [forestGrefs, List.nodup_append] at this
      exact ⟨this.1, this.2.1, fun x hx hy => this.2.2 hx hy⟩
    have hnisplit : (treeIids t).Nodup ∧ (forestIids ts').Nodup ∧
        ∀ x ∈ treeIids t, x ∉ forestIids ts' := by
      have := hni
      simp only [forestIids, List.nodup_append] at this
      exact ⟨this.1, this.2.1, fun x hx hy => this.2.2 hx hy⟩
    have henc1 : ∀ g, Enclosing.group g ∈ enc → g ∉ treeGrefs t := by
      intro g hg hin
      exact henc g hg (by simp [forestGrefs, hin])
    have hcache1 : ∀ iid ∈ treeIids t, lookup_interned cache iid = none := by
      intro iid hi
      exact hcache iid (by simp [forestIids, hi])
    obtain ⟨cache1, hpe1, hpres1⟩ :=
      pe_tree t enc m cache hwf1 hndsplit.1 hnisplit.1 henc1 hcache1
    have hagree : ∀ x ∈ forestGrefs ts',
        spec_modes (markedTree m t) (treeExpands m t) enc m x = m x := by
      intro x hx
      have h1 : markedTree m t x = false :=
        markedTree_of_not_mem t m x (fun hin => hndsplit.2.2 x hin hx)
      have h2 : enc_top_group enc x = false := by
        cases h : enc_top_group enc x with
        | false => rfl
        | true =>
          exact absurd (by simp [forestGrefs, hx] :
            x ∈ forestGrefs (t :: ts'))
            (henc x (enc_top_group_mem enc x h))
      simp [spec_modes, h1, h2]
    have henc2 : ∀ g, Enclosing.group g ∈ enc → g ∉ forestGrefs ts' := by
      intro g hg hin
      exact henc g hg (by simp [forestGrefs, hin])
    have hcache2 : ∀ iid ∈ forestIids ts', lookup_interned cache1 iid = none := by
      intro iid hi
      rw [hpres1 iid (fun hin => hnisplit.2.2 iid hin hi)]
      exact hcache iid (by simp [forestIids, hi])
    obtain ⟨cache2, hpe2, hpres2⟩ :=
      pe_forest ts' enc (spec_modes (markedTree m t) (treeExpands m t) enc m)
        cache1 hwf2 hndsplit.2.1 hnisplit.2.1 henc2 hcache2
    have hfe2 : forestExpands
        (spec_modes (markedTree m t) (treeExpands m t) enc m) ts' =
        forestExpands m ts' :=
      forestExpands_congr ts' _ m hagree
    have hmk2 : ∀ x, markedForest
        (spec_modes (markedTree m t) (treeExpands m t) enc m) ts' x =
        markedForest m ts' x :=
      fun x => markedForest_congr ts' _ m x hagree
    refine ⟨cache2, ?_, ?_⟩
    · show propagate_expands (flattenTree t ++ flattenForest ts') enc
        ⟨m, cache⟩ = _
      rw [propagate_expands_append, hpe1]
      simp only
      rw [hpe2]
      have hmode : spec_modes
          (markedForest (spec_modes (markedTree m t) (treeExpands m t) enc m) ts')
          (forestExpands (spec_modes (markedTree m t) (treeExpands m t) enc m) ts')
          enc (spec_modes (markedTree m t) (treeExpands m t) enc m) =
          spec_modes (markedForest m (t :: ts')) (forestExpands m (t :: ts'))
            enc m := by
        funext x
        simp only [spec_modes]
        rw [hmk2 x, hfe2]
        by_cases h1 : markedTree m t x <;>
          by_cases h2 : markedForest m ts' x <;>
          by_cases h3 : enc_top_group enc x <;>
          by_cases h4 : treeExpands m t <;>
          by_cases h5 : forestExpands m ts' <;>
            simp [spec_modes, markedForest, forestExpands, h1, h2, h3, h4, h5]
      rw [hmode, hfe2]
      simp [forestExpands]
    · intro iid hi
      rw [hpres2 iid (fun hin => hi (by simp [forestIids, hin]))]
      exact hpres1 iid (fun hin => hi (by simp [forestIids, hin]))
termination_by sizeOf ts

theorem pe_variants (vs : List (List DocTree)) (enc : List Enclosing)
    (m : Nat → GroupMode) (cache : List (Nat × Bool))
    (hwf : variantsWF vs = true) (hnd : (variantsGrefs vs).Nodup)
    (hni : (variantsIids vs).Nodup)
    (henc : ∀ g, Enclosing.group g ∈ enc → g ∉ variantsGrefs vs)
    (henc0 : ∀ x, enc_top_group enc x = false)
    (hcache : ∀ iid ∈ variantsIids vs, lookup_interned cache iid = none) :
    ∃ cache', propagate_expands_variants (flattenVariants vs) enc ⟨m, cache⟩ =
        (enc,
          ⟨fun x => if markedVariants m vs x then GroupMode.propagated else m x,
            cache'⟩) ∧
      ∀ iid, iid ∉ variantsIids vs →
        lookup_interned cache' iid = lookup_interned cache iid := by
  match vs with
  | [] =>
    refine ⟨cache, ?_, fun iid _ => rfl⟩
    have hm : (fun x => if markedVariants m [] x then GroupMode.propagated else m x)
        = m := by
      funext x
      simp [markedVariants]
    rw [hm]
    show propagate_expands_variants [] enc ⟨m, cache⟩ = _
    simp [propagate_expands_variants]
  | v :: vs' =>
    have hwf1 : forestWF v = true := by
      have := hwf
      simp [variantsWF, Bool.and_eq_true] at this
      exact this.1
    have hwf2 : variantsWF vs' = true := by
      have := hwf
      simp [variantsWF, Bool.and_eq_true] at this
      exact this.2
    have hndsplit : (forestGrefs v).Nodup ∧ (variantsGrefs vs').Nodup ∧
        ∀ x ∈ forestGrefs v, x ∉ variantsGrefs vs' := by
      have := hnd
      simp only [variantsGrefs, List.nodup_append] at this
      exact ⟨this.1, this.2.1, fun x hx hy => this.2.2 hx hy⟩
    have hnisplit : (forestIids v).Nodup ∧ (variantsIids vs').Nodup ∧
        ∀ x ∈ forestIids v, x ∉ variantsIids vs' := by
      have := hni
      simp only [variantsIids, List.nodup_append] at this
      exact ⟨this.1, this.2.1, fun x hx hy => this.2.2 hx hy⟩
    have henc1 : ∀ g, Enclosing.group g ∈ enc → g ∉ forestGrefs v := by
      intro g hg hin
      exact henc g hg (by simp [variantsGrefs, hin])
    have hcache1 : ∀ iid ∈ forestIids v, lookup_interned cache iid = none := by
      intro iid hi
      exact hcache iid (by simp [variantsIids, hi])
    obtain ⟨cache1, hpe1, hpres1⟩ :=
      pe_forest v enc m cache hwf1 hndsplit.1 hnisplit.1 henc1 hcache1
    have hagree : ∀ x ∈ variantsGrefs vs',
        spec_modes (markedForest m v) (forestExpands m v) enc m x = m x := by
      intro x hx
      have h1 : markedForest m v x = false :=
        markedForest_of_not_mem v m x (fun hin => hndsplit.2.2 x hin hx)
      simp [spec_modes, h1, henc0 x]
    have henc2 : ∀ g, Enclosing.group g ∈ enc → g ∉ variantsGrefs vs' := by
      intro g hg hin
      exact henc g hg (by simp [variantsGrefs, hin])
    have hcache2 : ∀ iid ∈ variantsIids vs', lookup_interned cache1 iid = none := by
      intro iid hi
      rw [hpres1 iid (fun hin => hnisplit.2.2 iid hin hi)]
      exact hcache iid (by simp [variantsIids, hi])
    obtain ⟨cache2, hpe2, hpres2⟩ :=
      pe_variants vs' enc (spec_modes (markedForest m v) (forestExpands m v) enc m)
        cache1 hwf2 hndsplit.2.1 hnisplit.2.1 henc2 henc0 hcache2
    refine ⟨cache2, ?_, ?_⟩
    · show propagate_expands_variants
        (flattenForest v :: flattenVariants vs') enc ⟨m, cache⟩ = _
      simp only [propagate_expands_variants]
      rw [hpe1]
      simp only
      rw [hpe2]
      have hmk2 : ∀ x, markedVariants
          (spec_modes (markedForest m v) (forestExpands m v) enc m) vs' x =
          markedVariants m vs' x :=
        fun x => markedVariants_congr vs' _ m x hagree
      have hmode : (fun x => if markedVariants
            (spec_modes (markedForest m v) (forestExpands m v) enc m) vs' x
          then GroupMode.propagated
          else spec_modes (markedForest m v) (forestExpands m v) enc m x) =
          fun x => if markedVariants m (v :: vs') x then GroupMode.propagated
            else m x := by
        funext x
        rw [hmk2]
        by_cases h1 : markedForest m v x <;>
          by_cases h2 : markedVariants m vs' x <;>
            simp [spec_modes, markedVariants, h1, h2, henc0 x]
      rw [hmode]
    · intro iid hi
      rw [hpres2 iid (fun hin => hi (by simp [variantsIids, hin]))]
      exact hpres1 iid (fun hin => hi (by simp [variantsIids, hin]))
termination_by sizeOf vs

end

/-- C1: in a finalized (balanced, well-formed) document, after
`propagate_expand` runs, every group whose contents contain an expanding
element or an already-expanded inner group has its mode set to `Propagated`
(the expanding elements being exactly `Line(Hard)`, `Line(Empty)`,
`ExpandParent`, and any text element containing a newline — see
`atom_expands` — with containment read through interned sub-documents and
stopping at `BestFitting` boundaries), and a group containing none of these
and no non-flat inner group keeps its original mode. -/
theorem propagate_expand_marks_groups (ts : List DocTree) (m : Nat → GroupMode)
    (g : Nat) (cs : List DocTree)
    (hwf : forestWF ts = true) (hnd : (forestGrefs ts).Nodup)
    (hni : (forestIids ts).Nodup)
    (hocc : GroupOccursForest g cs ts) :
    Document.propagate_expand ⟨flattenForest ts⟩ m g =
      if forestExpands m cs then GroupMode.propagated else m g := by
  obtain ⟨cache', hpe, _⟩ := pe_forest ts [] m [] hwf hnd hni
    (by intro p hp; simp at hp) (by intro iid _; simp [lookup_interned])
  unfold Document.propagate_expand
  rw [hpe]
  have hmk := markedForest_of_occ ts m g cs hnd hocc
  simp [spec_modes, hmk, enc_top_group]

/-- Witness for C1: the document `group 0 [hard line]; group 1 [text]` —
group 0 becomes `Propagated`, group 1 keeps its `Flat` mode. -/
theorem propagate_expand_marks_groups_witness :
    Document.propagate_expand
        ⟨flattenForest [DocTree.group 0 [.atom (.line .hard)],
          DocTree.group 1 [.atom FormatElement.space]]⟩
        (fun _ => GroupMode.flat) 0 = GroupMode.propagated ∧
    Document.propagate_expand
        ⟨flattenForest [DocTree.group 0 [.atom (.line .hard)],
          DocTree.group 1 [.atom FormatElement.space]]⟩
        (fun _ => GroupMode.flat) 1 = GroupMode.flat := by
  have h0 := propagate_expand_marks_groups
    [DocTree.group 0 [.atom (.line .hard)], DocTree.group 1 [.atom FormatElement.space]]
    (fun _ => GroupMode.flat) 0 [.atom (.line .hard)]
    (by decide) (by decide) (by decide)
    (Or.inl (Or.inl ⟨rfl, rfl⟩))
  have h1 := propagate_expand_marks_groups
    [DocTree.group 0 [.atom (.line .hard)], DocTree.group 1 [.atom FormatElement.space]]
    (fun _ => GroupMode.flat) 1 [.atom FormatElement.space]
    (by decide) (by decide) (by decide)
    (Or.inr (Or.inl (Or.inl ⟨rfl, rfl⟩)))
  refine ⟨h0.trans ?_, h1.trans ?_⟩ <;>
    simp [forestExpands, treeExpands, atom_expands]

/-- C2: `BestFitting` is an expansion boundary — processing a `BestFitting`
element always reports `element_expands = false` to the surrounding loop, and
running the pre-pass over a (well-formed) `BestFitting` tree leaves the mode
of every group cell outside its variants (in particular every enclosing
group) unchanged; yet processing a `BestFitting` does not reset the running
`expands` accumulator, so an interned sub-document whose elements contain an
expanding element followed by a `BestFitting` is memoized with `expands =
true`. -/
theorem best_fitting_boundary (variants0 : List (List FormatElement)) :
    (∀ (enc : List Enclosing) (st : PropagateState),
      (propagate_expands_element (.bestFitting variants0) enc st).1 = false) ∧
    (∀ (vs : List (List DocTree)) (enc : List Enclosing) (m : Nat → GroupMode)
      (cache : List (Nat × Bool)) (x : Nat),
      treeWF (DocTree.bestFit vs) = true →
      (treeGrefs (DocTree.bestFit vs)).Nodup →
      (treeIids (DocTree.bestFit vs)).Nodup →
      (∀ p, Enclosing.group p ∈ enc → p ∉ treeGrefs (DocTree.bestFit vs)) →
      (∀ iid ∈ treeIids (DocTree.bestFit vs), lookup_interned cache iid = none) →
      x ∉ variantsGrefs vs →
      (propagate_expands (flattenTree (DocTree.bestFit vs)) enc
        ⟨m, cache⟩).2.2.modes x = m x) ∧
    (∀ (iid : Nat) (es1 es2 : List FormatElement)
      (vs : List (List FormatElement)) (e : FormatElement)
      (enc : List Enclosing) (st : PropagateState),
      lookup_interned st.checked_interned iid = none →
      e ∈ es1 → atom_expands e = true →
      lookup_interned
        ((propagate_expands_element
          (.interned iid (es1 ++ .bestFitting vs :: es2)) enc st).2.2.checked_interned)
        iid = some true) := by
  refine ⟨?_, ?_, ?_⟩
  · intro enc st
    rcases h : propagate_expands_variants variants0 (.bestFitting :: enc) st with
      ⟨enc1, st1⟩
    simp [propagate_expands_element, h]
  · intro vs enc m cache x hwf hnd hni henc hcache hx
    obtain ⟨cache', hpe, _⟩ := pe_tree (DocTree.bestFit vs) enc m cache
      hwf hnd hni henc hcache
    rw [hpe]
    simp [spec_modes, markedTree, treeExpands,
      markedVariants_of_not_mem vs m x hx]
  · intro iid es1 es2 vs e enc st hmiss hmem hexp
    have hball : e ∈ es1 ++ FormatElement.bestFitting vs :: es2 :=
      List.mem_append_left _ hmem
    have hb := propagate_expands_mem_true
      (es1 ++ FormatElement.bestFitting vs :: es2) e enc st hball hexp
    rcases h : propagate_expands (es1 ++ FormatElement.bestFitting vs :: es2)
      enc st with ⟨b, enc1, st1⟩
    rw [h] at hb
    simp at hb
    simp [propagate_expands_element, hmiss, h, hb, lookup_interned_cons]

/-- Witness for C2 at concrete inputs: a `BestFitting` containing a hard
line reports no expansion and leaves an enclosing group flat, while an
interned sub-document `[expand_parent, best_fitting …]` is memoized as
expanding. -/
theorem best_fitting_boundary_witness :
    (propagate_expands_element
      (.bestFitting [[FormatElement.line .hard]]) [Enclosing.group 0]
      ⟨fun _ => GroupMode.flat, []⟩).1 = false ∧
    (propagate_expands
      (flattenTree (DocTree.bestFit [[DocTree.atom (.line .hard)]]))
      [Enclosing.group 0] ⟨fun _ => GroupMode.flat, []⟩).2.2.modes 0 =
      GroupMode.flat ∧
    lookup_interned
      ((propagate_expands_element
        (.interned 0 ([FormatElement.expandParent] ++
          FormatElement.bestFitting [[FormatElement.staticText "a"]] :: []))
        [] ⟨fun _ => GroupMode.flat, []⟩).2.2.checked_interned) 0 = some true := by
  have h := best_fitting_boundary [[FormatElement.line .hard]]
  refine ⟨h.1 [Enclosing.group 0] ⟨fun _ => GroupMode.flat, []⟩, ?_, ?_⟩
  · have h2 := h.2.1 [[DocTree.atom (.line .hard)]] [Enclosing.group 0]
      (fun _ => GroupMode.flat) [] 0 (by decide) (by decide) (by decide)
      (by intro p hp; simp at hp; subst hp; decide)
      (by intro iid hi; simp [treeIids, variantsIids, forestIids] at hi)
      (by decide)
    exact h2
  · exact h.2.2 0 [FormatElement.expandParent] []
      [[FormatElement.staticText "a"]] FormatElement.expandParent []
      ⟨fun _ => GroupMode.flat, []⟩ (by simp [lookup_interned])
      (by simp) (by decide)

mutual

theorem idem_tree (t : DocTree) (m m1 : Nat → GroupMode)
    (h : ∀ g cs, GroupOccursTree g cs t →
      m1 g = if forestExpands m cs then GroupMode.propagated else m g) :
    treeExpands m1 t = treeExpands m t ∧
      ∀ x, markedTree m1 t x = markedTree m t x := by
  match t with
  | .atom e => exact ⟨rfl, fun x => rfl⟩
  | .group g cs =>
    have ih := idem_forest cs m m1
      (fun g' cs' hocc => h g' cs' (Or.inr hocc))
    have hg := h g cs (Or.inl ⟨rfl, rfl⟩)
    constructor
    · show (!(m1 g).is_flat || forestExpands m1 cs) = _
      rw [ih.1, hg]
      cases hfc : forestExpands m cs with
      | true => simp [treeExpands, hfc, GroupMode.is_flat]
      | false => simp [treeExpands, hfc]
    · intro x
      show ((decide (g = x) && forestExpands m1 cs) || markedForest m1 cs x) = _
      rw [ih.1, ih.2 x]
      rfl
  | .bestFit vs =>
    have ih := idem_variants vs m m1 (fun g' cs' hocc => h g' cs' hocc)
    exact ⟨rfl, fun x => ih x⟩
  | .ref iid cs =>
    have ih := idem_forest cs m m1 (fun g' cs' hocc => h g' cs' hocc)
    exact ⟨ih.1, fun x => ih.2 x⟩
termination_by sizeOf t

theorem idem_forest (ts : List DocTree) (m m1 : Nat → GroupMode)
    (h : ∀ g cs, GroupOccursForest g cs ts →
      m1 g = if forestExpands m cs then GroupMode.propagated else m g) :
    forestExpands m1 ts = forestExpands m ts ∧
      ∀ x, markedForest m1 ts x = markedForest m ts x := by
  match ts with
  | [] => exact ⟨rfl, fun x => rfl⟩
  | t :: ts' =>
    have ih1 := idem_tree t m m1 (fun g' cs' hocc => h g' cs' (Or.inl hocc))
    have ih2 := idem_forest ts' m m1 (fun g' cs' hocc => h g' cs' (Or.inr hocc))
    constructor
    · show (treeExpands m1 t || forestExpands m1 ts') = _
      rw [ih1.1, ih2.1]
      rfl
    · intro x
      show (markedTree m1 t x || markedForest m1 ts' x) = _
      rw [ih1.2 x, ih2.2 x]
      rfl
termination_by sizeOf ts

theorem idem_variants (vs : List (List DocTree)) (m m1 : Nat → GroupMode)
    (h : ∀ g cs, GroupOccursVariants g cs vs →
      m1 g = if forestExpands m cs then GroupMode.propagated else m g) :
    ∀ x, markedVariants m1 vs x = markedVariants m vs x := by
  match vs with
  | [] => exact fun x => rfl
  | v :: vs' =>
    have ih1 := idem_forest v m m1 (fun g' cs' hocc => h g' cs' (Or.inl hocc))
    have ih2 := idem_variants vs' m m1 (fun g' cs' hocc => h g' cs' (Or.inr hocc))
    intro x
    show (markedForest m1 v x || markedVariants m1 vs' x) = _
    rw [ih1.2 x, ih2 x]
    rfl
termination_by sizeOf vs

end

/-- C9: `propagate_expand` is idempotent on finalized (balanced, well-formed)
documents — the second run changes no group mode.  (The element sequence is
untouched by construction: the pass only updates the mode cells.) -/
theorem propagate_expand_idempotent (ts : List DocTree) (m : Nat → GroupMode)
    (hwf : forestWF ts = true) (hnd : (forestGrefs ts).Nodup)
    (hni : (forestIids ts).Nodup) :
    ∀ x, Document.propagate_expand ⟨flattenForest ts⟩
        (Document.propagate_expand ⟨flattenForest ts⟩ m) x =
      Document.propagate_expand ⟨flattenForest ts⟩ m x := by
  obtain ⟨c1, hpe1, _⟩ := pe_forest ts [] m [] hwf hnd hni
    (by intro p hp; simp at hp) (by intro iid _; simp [lookup_interned])
  have hm1 : ∀ x, Document.propagate_expand ⟨flattenForest ts⟩ m x =
      if markedForest m ts x then GroupMode.propagated else m x := by
    intro x
    unfold Document.propagate_expand
    rw [hpe1]
    simp [spec_modes, enc_top_group]
  obtain ⟨c2, hpe2, _⟩ := pe_forest ts []
    (Document.propagate_expand ⟨flattenForest ts⟩ m) [] hwf hnd hni
    (by intro p hp; simp at hp) (by intro iid _; simp [lookup_interned])
  have hidem := idem_forest ts m (Document.propagate_expand ⟨flattenForest ts⟩ m)
    (fun g cs hocc => by
      rw [hm1 g, markedForest_of_occ ts m g cs hnd hocc])
  intro x
  conv_lhs => rw [show Document.propagate_expand ⟨flattenForest ts⟩
      (Document.propagate_expand ⟨flattenForest ts⟩ m) x =
    (propagate_expands (flattenForest ts) []
      ⟨Document.propagate_expand ⟨flattenForest ts⟩ m, []⟩).2.2.modes x from rfl]
  rw [hpe2]
  simp only [spec_modes, enc_top_group]
  rw [hidem.2 x]
  rw [hm1 x]
  cases hmk : markedForest m ts x with
  | true =>
    simp [hmk, hm1 x]
  | false =>
    simp [hmk, hm1 x]

/-- Witness for C9 at a concrete document. -/
theorem propagate_expand_idempotent_witness :
    Document.propagate_expand
        ⟨flattenForest [DocTree.group 2 [.atom .expandParent]]⟩
        (Document.propagate_expand
          ⟨flattenForest [DocTree.group 2 [.atom .expandParent]]⟩
          (fun _ => GroupMode.flat)) 2 =
      Document.propagate_expand
        ⟨flattenForest [DocTree.group 2 [.atom .expandParent]]⟩
        (fun _ => GroupMode.flat) 2 :=
  propagate_expand_idempotent [DocTree.group 2 [.atom .expandParent]]
    (fun _ => GroupMode.flat) (by decide) (by decide) (by decide) 2

/-- C3: every element forwarded to the inner buffer by
`RemoveSoftLinesBuffer::write_element` is neither a `Line(Soft)` nor a
`Line(SoftOrSpace)` nor a `BestFitting`; writing any non-conditional-tag
element while the innermost open `ConditionalContent` scope is expanded
forwards nothing and leaves the cache and the scope stack unchanged; outside
an expanded scope, `Line(SoftOrSpace)` is forwarded as exactly one `Space`,
and a `BestFitting` is processed as the recursively filtered elements of its
most-flat variant. -/
theorem remove_soft_lines_filters (e : FormatElement) (cache : InternedCache)
    (stack : List Condition) :
    (∀ out ∈ (write_element e cache stack).1, rsl_output_ok out = true) ∧
    (is_in_expanded_conditional_content stack = true →
      (∀ condition, e ≠ .tag (.startConditionalContent condition)) →
      e ≠ .tag .endConditionalContent →
      write_element e cache stack = ([], cache, stack)) ∧
    (is_in_expanded_conditional_content stack = false →
      write_element (.line .softOrSpace) cache stack = ([.space], cache, stack)) ∧
    (is_in_expanded_conditional_content stack = false →
      ∀ variants, write_element (.bestFitting variants) cache stack =
        loop_phase (most_flat variants) cache stack) := by
  refine ⟨loop_phase_output_ok [e] cache stack, fun hx h1 h2 => ?_, fun hx => ?_,
    fun hx variants => ?_⟩
  · unfold write_element
    rw [loop_phase_drop e [] cache stack hx h1 h2, loop_phase_nil]
  · unfold write_element
    rw [loop_phase_soft_or_space [] cache stack hx, loop_phase_nil]
  · unfold write_element
    rw [loop_phase_best_fitting variants [] cache stack hx]
    simp

/-- Witness for C3 at concrete inputs: a text inside an expanded scope is
dropped, and a `SoftOrSpace` outside any scope becomes a `Space`. -/
theorem remove_soft_lines_filters_witness :
    write_element (.staticText "x") [] [⟨PrintMode.expanded, none⟩] =
      ([], [], [⟨PrintMode.expanded, none⟩]) ∧
    write_element (.line .softOrSpace) [] [] = ([.space], [], []) := by
  have h1 := remove_soft_lines_filters (.staticText "x") []
    [⟨PrintMode.expanded, none⟩]
  have h2 := remove_soft_lines_filters (.line .softOrSpace) [] []
  exact ⟨h1.2.1 (by decide) (by intro c hc; cases hc) (by intro hc; cases hc),
    h2.2.2.1 (by decide)⟩

/-- C10: whether `RemoveSoftLinesBuffer` suppresses an element depends only on
the innermost still-open `ConditionalContent` scope: when the most recently
opened condition has mode `Flat`, suppression is off — every pass-through
element is forwarded unchanged and `Line(SoftOrSpace)` is still rewritten to
`Space` — no matter how many outer still-open scopes are `Expanded`. -/
theorem innermost_conditional_scope_decides (c : Condition)
    (rest : List Condition) (hc : c.mode = PrintMode.flat) :
    is_in_expanded_conditional_content (c :: rest) = false ∧
    (∀ (e : FormatElement) (cache : InternedCache), rsl_passthrough e = true →
      write_element e cache (c :: rest) = ([e], cache, c :: rest)) ∧
    (∀ cache : InternedCache,
      write_element (.line .softOrSpace) cache (c :: rest) =
        ([.space], cache, c :: rest)) := by
  have hx : is_in_expanded_conditional_content (c :: rest) = false := by
    simp [is_in_expanded_conditional_content, hc]
  refine ⟨hx, fun e cache hp => ?_, fun cache => ?_⟩
  · unfold write_element
    rw [loop_phase_pass e [] cache (c :: rest) hx hp, loop_phase_nil]
  · unfold write_element
    rw [loop_phase_soft_or_space [] cache (c :: rest) hx, loop_phase_nil]

/-- Witness for C10: a text written under an innermost `Flat` scope is
forwarded even though the outer still-open scope is `Expanded`. -/
theorem innermost_conditional_scope_decides_witness :
    is_in_expanded_conditional_content
      [⟨PrintMode.flat, none⟩, ⟨PrintMode.expanded, none⟩] = false ∧
    write_element (.staticText "x") []
        [⟨PrintMode.flat, none⟩, ⟨PrintMode.expanded, none⟩] =
      ([.staticText "x"], [],
        [⟨PrintMode.flat, none⟩, ⟨PrintMode.expanded, none⟩]) := by
  have h := innermost_conditional_scope_decides ⟨PrintMode.flat, none⟩
    [⟨PrintMode.expanded, none⟩] rfl
  exact ⟨h.1, h.2.1 (.staticText "x") [] (by decide)⟩

end OxcFormatter
